import Mathlib

/-!
Verification of the structured-extraction pipeline of the repository
(`backend-python/structured_extraction_pipeline.py`, `link_extractor.py`,
`taxonomy_builder.py`).

Shallow embedding conventions:
* Python strings that are sliced by character offsets are modelled as
  `List Char`; Python's `s[a:b]` (with `0 ≤ a ≤ b`, clamped at the ends)
  is `pySlice`.
* Python `float` confidences are modelled as `Rat`; the source only
  compares them and averages them.
* Python `dict` values (insertion-ordered) are modelled as association
  lists; updating an existing key keeps its position, a new key is
  appended at the end.
* Effectful fields that the verified logic never reads (`timestamp`,
  the free-form `metadata`/`document_metadata` dictionaries) are omitted
  from the records.
* External collaborators (the LLM completion call, the embedding model
  and DBSCAN clustering) are parameters of the functions that the source
  wires to them; everything else is translated from the source.
-/

namespace PdfConceptTagger

/-- `EvidenceSpan` (structured_extraction_pipeline.py lines 27-39). -/
structure EvidenceSpan where
  text : List Char
  start_char : Nat
  end_char : Nat
  page_number : Nat
  section_id : Option String
  confidence : Rat
deriving DecidableEq, Repr

/-- `DocumentTreeNode` (structured_extraction_pipeline.py lines 42-58). -/
structure DocumentTreeNode where
  id : String
  type : String
  level : Nat
  title : Option String
  text : List Char
  start_char : Nat
  end_char : Nat
  page_number : Nat
  parent_id : Option String
  children_ids : List String
deriving DecidableEq, Repr

/-- `ConceptRegistry` (structured_extraction_pipeline.py lines 61-75). -/
structure ConceptRegistry where
  canonical_id : String
  canonical_term : List Char
  synonyms : List String
  definition_spans : List EvidenceSpan
  example_spans : List EvidenceSpan
  category : String
  confidence : Rat
  extracted_by : String
deriving DecidableEq, Repr

/-- `TaxonomyEdge` (structured_extraction_pipeline.py lines 78-91). -/
structure TaxonomyEdge where
  parent_id : String
  child_id : String
  relationship_type : String
  evidence_spans : List EvidenceSpan
  confidence : Rat
  extracted_by : String
deriving DecidableEq, Repr

/-- `KnowledgeGraphEdge` (structured_extraction_pipeline.py lines 94-114). -/
structure KnowledgeGraphEdge where
  source_id : String
  target_id : String
  predicate : String
  relationship_type : String
  evidence_spans : List EvidenceSpan
  confidence : Rat
  schema_aligned : Bool
  extracted_by : String
deriving DecidableEq, Repr

/-- `ExtractionPipelineOutput` (structured_extraction_pipeline.py lines 117-146). -/
structure ExtractionPipelineOutput where
  document_id : String
  document_tree : List DocumentTreeNode
  concept_registry : List ConceptRegistry
  taxonomy_edges : List TaxonomyEdge
  kg_edges : List KnowledgeGraphEdge
  validation_errors : List String
  confidence_summary : List (String × Rat)
deriving DecidableEq, Repr

/-- Python string slice `s[a:b]` for `0 ≤ a ≤ b` (indices past the end clamp). -/
def pySlice (s : List Char) (a b : Nat) : List Char :=
  (s.drop a).take (b - a)

/-! ### Association-list machinery for Python dicts -/

/-- First value stored under key `k` (Python `d[k]` / `k in d`). -/
def alookup {κ α : Type} [DecidableEq κ] (k : κ) : List (κ × α) → Option α
  | [] => none
  | p :: ps => if p.1 = k then some p.2 else alookup k ps

/-- Replace the value stored under key `k`, keeping its position
(Python `d[k] = v` when `k` is already present). -/
def replaceVal {κ α : Type} [DecidableEq κ] (k : κ) (a : α) : List (κ × α) → List (κ × α)
  | [] => []
  | p :: ps => if p.1 = k then (k, a) :: ps else p :: replaceVal k a ps

/-- Append `a` to the group stored under `k`, or start a new group at the end
(Python `d.setdefault(k, []).append(a)` style loop). -/
def insertGroup {κ α : Type} [DecidableEq κ] (k : κ) (a : α) :
    List (κ × List α) → List (κ × List α)
  | [] => [(k, [a])]
  | g :: gs => if g.1 = k then (g.1, g.2 ++ [a]) :: gs else g :: insertGroup k a gs

/-- Group a keyed list into an insertion-ordered dict of groups. -/
def groupFold {κ α : Type} [DecidableEq κ] (ps : List (κ × α)) : List (κ × List α) :=
  ps.foldl (fun acc p => insertGroup p.1 p.2 acc) []

/-- One step of first-occurrence key collection. -/
def occStep {κ : Type} [DecidableEq κ] (acc : List κ) (k : κ) : List κ :=
  if k ∈ acc then acc else acc ++ [k]

/-- Keys in first-occurrence order (the iteration order of a Python dict
whose keys were inserted while scanning the list). -/
def firstOccKeys {κ : Type} [DecidableEq κ] (ks : List κ) : List κ :=
  ks.foldl occStep []

/-! ### LinkExtractor post-processing (link_extractor.py) -/

/-- The `(edge.source_id, edge.target_id)` grouping key of
`_resolve_contradictions` (link_extractor.py line 252). -/
def pairKey (e : KnowledgeGraphEdge) : String × String :=
  (e.source_id, e.target_id)

/-- The `(edge.source_id, edge.target_id, edge.predicate)` key of
`_resolve_duplicates` (link_extractor.py line 291). -/
def tripleKey (e : KnowledgeGraphEdge) : String × String × String :=
  (e.source_id, e.target_id, e.predicate)

/-- Python `max(group_edges, key=lambda e: e.confidence)`: scans left to
right and replaces the current best only on strictly greater confidence,
so the first edge attaining the maximum wins. -/
def maxByConfidence (h : KnowledgeGraphEdge) (t : List KnowledgeGraphEdge) :
    KnowledgeGraphEdge :=
  t.foldl (fun best e => if best.confidence < e.confidence then e else best) h

/-- One group of `_resolve_contradictions` (link_extractor.py lines 260-271):
`len(set(predicates)) > 1` is the negation of all predicates being equal. -/
def resolveGroup : List KnowledgeGraphEdge → List KnowledgeGraphEdge
  | [] => []
  | h :: t =>
    if ((h :: t).map (fun e => e.predicate)).Pairwise (· = ·) then h :: t
    else [maxByConfidence h t]

/-- `LinkExtractor._resolve_contradictions` (link_extractor.py lines 234-273). -/
def resolveContradictions (edges : List KnowledgeGraphEdge) : List KnowledgeGraphEdge :=
  (groupFold (edges.map (fun e => (pairKey e, e)))).flatMap (fun g => resolveGroup g.2)

/-- One step of the `_resolve_duplicates` loop (link_extractor.py lines 290-298). -/
def dupStep (seen : List ((String × String × String) × KnowledgeGraphEdge))
    (e : KnowledgeGraphEdge) :
    List ((String × String × String) × KnowledgeGraphEdge) :=
  match alookup (tripleKey e) seen with
  | none => seen ++ [(tripleKey e, e)]
  | some cur =>
    if cur.confidence < e.confidence then replaceVal (tripleKey e) e seen else seen

/-- `LinkExtractor._resolve_duplicates` (link_extractor.py lines 275-300):
a fold over the edges keeping, per key, the first edge of strictly maximal
confidence, returned in key-insertion order (`list(seen.values())`). -/
def resolveDuplicates (edges : List KnowledgeGraphEdge) : List KnowledgeGraphEdge :=
  (edges.foldl dupStep []).map (fun p => p.2)

/-! ### Pattern-based (OpenIE-style) extraction (link_extractor.py lines 67-118)

The source scans each node text with `re.finditer` for the three hardcoded
case-insensitive patterns of the shape `(\w+)\s+lit1(\s+lit2)*\s+(\w+)`.
Because `\w` and `\s` are disjoint and the middle parts are literals,
Python's backtracking never helps, so the matcher below (greedy word run,
then for each literal a nonempty whitespace run and the literal, then a
greedy word run) is the regex semantics; `scanPattern` reproduces
`finditer`'s leftmost, non-overlapping scan (resuming at each match end). -/

/-- Python `\w` for the ASCII texts handled here. -/
def isWordChar (c : Char) : Bool :=
  c.isAlphanum || c = '_'

/-- Python `\s` (ASCII whitespace). -/
def pyIsSpace (c : Char) : Bool :=
  c = ' ' || c = '\t' || c = '\n' || c = '\r' || c = '\x0b' || c = '\x0c'

/-- Consume `\s+`: at least one whitespace character, greedily. -/
def eatSpaces : List Char → Option (List Char)
  | [] => none
  | c :: cs => if pyIsSpace c then some (cs.dropWhile pyIsSpace) else none

/-- Consume a literal, case-insensitively (`re.IGNORECASE`). -/
def eatLit : List Char → List Char → Option (List Char)
  | [], s => some s
  | _ :: _, [] => none
  | c :: cs, d :: ds => if d.toLower = c.toLower then eatLit cs ds else none

/-- After the subject group: consume `\s+ lit` for every middle literal,
then `\s+` and the greedy object word group; returns (object, rest). -/
def matchTail : List (List Char) → List Char → Option (List Char × List Char)
  | [], s =>
    (eatSpaces s).bind (fun s1 =>
      if (s1.takeWhile isWordChar).isEmpty then none
      else some (s1.takeWhile isWordChar,
        s1.drop (s1.takeWhile isWordChar).length))
  | lit :: lits, s =>
    (eatSpaces s).bind (fun s1 => (eatLit lit s1).bind (fun s2 =>
      matchTail lits s2))

/-- Try to match the pattern at the start of `s`:
greedy subject word group, then the tail. Returns (subject, object, rest). -/
def matchAt (mids : List (List Char)) (s : List Char) :
    Option (List Char × List Char × List Char) :=
  if (s.takeWhile isWordChar).isEmpty then none
  else (matchTail mids (s.drop (s.takeWhile isWordChar).length)).map
    (fun p => (s.takeWhile isWordChar, p.1, p.2))

/-- `re.finditer` scan: try each position left to right, emit
(start, end, subject, object) and resume at the match end. -/
def scanPattern (text : List Char) (mids : List (List Char)) :
    Nat → Nat → List (Nat × Nat × List Char × List Char)
  | 0, _ => []
  | fuel + 1, i =>
    match matchAt mids (text.drop i) with
    | some (w1, w2, rest) =>
      let e := i + ((text.drop i).length - rest.length)
      (i, e, w1, w2) :: scanPattern text mids fuel e
    | none =>
      if i < text.length then scanPattern text mids fuel (i + 1) else []

/-- All matches of one pattern in `text`. -/
def findIter (mids : List (List Char)) (text : List Char) :
    List (Nat × Nat × List Char × List Char) :=
  scanPattern text mids (text.length + 1) 0

/-- The hardcoded pattern table of `extract_openie_triples`
(link_extractor.py lines 94-98): middle literals and the relation name. -/
def openiePatterns : List (List (List Char) × String) :=
  [ ([ "depends".toList, "on".toList ], "depends_on"),
    ([ "mitigates".toList ], "mitigates"),
    ([ "defines".toList ], "defines") ]

/-- A `(subject_id, relation, obj_id, start_char, end_char)` tuple
as appended by `extract_openie_triples` (link_extractor.py line 116). -/
structure OpenIETriple where
  subject_id : String
  relation : String
  obj_id : String
  start_char : Nat
  end_char : Nat
deriving DecidableEq, Repr

/-- Lowercase a candidate word the way `str.lower()` does on ASCII text. -/
def lowerStr (s : List Char) : List Char :=
  s.map Char.toLower

/-- The `concept_terms` dict lookup of link_extractor.py lines 110-114:
a dict comprehension keyed by `c.canonical_term.lower()` keeps the last
entry for a repeated key, hence the reversed search. -/
def conceptTermLookup (registry : List ConceptRegistry) (term : List Char) :
    Option String :=
  (registry.reverse.find? (fun c => lowerStr c.canonical_term = term)).map
    (fun c => c.canonical_id)

/-- `LinkExtractor.extract_openie_triples` (link_extractor.py lines 67-118). -/
def extract_openie_triples (text : List Char) (registry : List ConceptRegistry) :
    List OpenIETriple :=
  openiePatterns.flatMap (fun pr =>
    (findIter pr.1 text).map (fun m =>
      { subject_id := ((conceptTermLookup registry (lowerStr m.2.2.1)).getD
          (String.mk m.2.2.1))
        relation := pr.2
        obj_id := ((conceptTermLookup registry (lowerStr m.2.2.2)).getD
          (String.mk m.2.2.2))
        start_char := m.1
        end_char := m.2.1 }))

/-- The per-node OpenIE branch of `LinkExtractor.extract_links`
(link_extractor.py lines 325-348): each triple becomes an edge with one
evidence span sliced from the node text, offsets shifted by the node's
`start_char`, and the fixed OpenIE confidence 0.6. -/
def openieNodeEdges (node : DocumentTreeNode) (registry : List ConceptRegistry) :
    List KnowledgeGraphEdge :=
  (extract_openie_triples node.text registry).map (fun t =>
    { source_id := t.subject_id
      target_id := t.obj_id
      predicate := t.relation
      relationship_type := "semantic"
      evidence_spans :=
        [ { text := pySlice node.text t.start_char t.end_char
            start_char := t.start_char + node.start_char
            end_char := t.end_char + node.start_char
            page_number := node.page_number
            section_id := some node.id
            confidence := mkRat 3 5 } ]
      confidence := mkRat 3 5
      schema_aligned := false
      extracted_by := "openie" })

/-- Structural worker for `chunks`: `fuel` bounds the remaining length so
the recursion is structural (each step consumes at least one element). -/
def chunksAux {α : Type} (n : Nat) : Nat → List α → List (List α)
  | _, [] => []
  | 0, _ :: _ => []
  | fuel + 1, a :: l => (a :: l.take (n - 1)) :: chunksAux n fuel (l.drop (n - 1))

/-- Split a list into batches produced by
`for i in range(0, len(l), n): l[i:i+n]` (for `n ≥ 1`). -/
def chunks {α : Type} (n : Nat) (l : List α) : List (List α) :=
  chunksAux n l.length l

/-- `LinkExtractor._parse_relation_response` (link_extractor.py lines 220-232)
is a stub in the source: it returns `[]` for every response. -/
def parseRelationResponse (responseText : String)
    (batch : List DocumentTreeNode) : List KnowledgeGraphEdge :=
  []

/-- `LinkExtractor.extract_llm_relations` (link_extractor.py lines 120-164):
batches of 5 nodes; `acomplete` abstracts the external LLM completion of the
built prompt (a pure function of the batch), whose text is fed to the stub
parser; then both resolution passes. -/
def extractLlmRelations (acomplete : List DocumentTreeNode → String)
    (nodes : List DocumentTreeNode) (registry : List ConceptRegistry) :
    List KnowledgeGraphEdge :=
  resolveDuplicates (resolveContradictions
    ((chunks 5 nodes).flatMap (fun batch =>
      parseRelationResponse (acomplete batch) batch)))

/-- `LinkExtractor.extract_links` (link_extractor.py lines 302-359). -/
def extractLinks (acomplete : List DocumentTreeNode → String)
    (document_tree : List DocumentTreeNode) (registry : List ConceptRegistry)
    (use_openie use_llm : Bool) : List KnowledgeGraphEdge :=
  let openieEdges :=
    if use_openie then
      document_tree.flatMap (fun node => openieNodeEdges node registry)
    else []
  let llmEdges :=
    if use_llm then extractLlmRelations acomplete document_tree registry else []
  resolveDuplicates (resolveContradictions (openieEdges ++ llmEdges))

/-! ### Pipeline orchestrator (structured_extraction_pipeline.py) -/

/-- The constructor arguments of `StructuredExtractionPipeline`
(structured_extraction_pipeline.py lines 165-182). -/
structure PipelineConfig where
  require_evidence : Bool
  min_confidence : Rat
  validate_schema : Bool
deriving DecidableEq, Repr

/-- `StructuredExtractionPipeline.validate_output`
(structured_extraction_pipeline.py lines 341-384): records diagnostics,
in source order, and returns them; it does not modify the output. -/
def validateOutput (cfg : PipelineConfig) (output : ExtractionPipelineOutput) :
    List String :=
  (if cfg.require_evidence then
      (output.taxonomy_edges.filter (fun e => e.evidence_spans.isEmpty)).map
        (fun e => "Taxonomy edge " ++ e.parent_id ++ "->" ++ e.child_id ++
          " missing evidence")
      ++ (output.kg_edges.filter (fun e => e.evidence_spans.isEmpty)).map
        (fun e => "KG edge " ++ e.source_id ++ "->" ++ e.target_id ++
          " missing evidence")
    else [])
  ++ (output.taxonomy_edges.filter
        (fun e => e.confidence < cfg.min_confidence)).map
      (fun e => "Taxonomy edge " ++ e.parent_id ++ "->" ++ e.child_id ++
        " below confidence threshold")
  ++ (output.kg_edges.filter (fun e => e.confidence < cfg.min_confidence)).map
      (fun e => "KG edge " ++ e.source_id ++ "->" ++ e.target_id ++
        " below confidence threshold")

/-- Arithmetic mean, `sum(...) / len(...)`. -/
def mean (xs : List Rat) : Rat :=
  xs.sum / xs.length

/-- The tail of `StructuredExtractionPipeline.run_pipeline`
(structured_extraction_pipeline.py lines 424-449), parametrised by the
stage results (the stage methods themselves are stubs in the source, see
`runPipeline`): build the output object, attach validation errors when
`validate_schema` is set, then add `taxonomy_avg`/`kg_avg` to the
confidence summary only for non-empty edge collections. -/
def assembleOutput (cfg : PipelineConfig) (document_id : String)
    (document_tree : List DocumentTreeNode)
    (concept_registry : List ConceptRegistry)
    (taxonomy_edges : List TaxonomyEdge)
    (kg_edges : List KnowledgeGraphEdge) : ExtractionPipelineOutput :=
  let base : ExtractionPipelineOutput :=
    { document_id := document_id
      document_tree := document_tree
      concept_registry := concept_registry
      taxonomy_edges := taxonomy_edges
      kg_edges := kg_edges
      validation_errors := []
      confidence_summary := [] }
  let withErrors :=
    { base with validation_errors :=
        if cfg.validate_schema then validateOutput cfg base else [] }
  let s1 :=
    if taxonomy_edges.isEmpty then withErrors.confidence_summary
    else withErrors.confidence_summary ++
      [("taxonomy_avg", mean (taxonomy_edges.map (fun e => e.confidence)))]
  let s2 :=
    if kg_edges.isEmpty then s1
    else s1 ++ [("kg_avg", mean (kg_edges.map (fun e => e.confidence)))]
  { withErrors with confidence_summary := s2 }

/-- `StructuredExtractionPipeline.run_pipeline`
(structured_extraction_pipeline.py lines 386-449): stages 1-4 are the
class's own stub methods, each of which returns `[]` in the source
(lines 192-339), so every run assembles empty stage results. -/
def runPipeline (cfg : PipelineConfig) (document_id : String) :
    ExtractionPipelineOutput :=
  assembleOutput cfg document_id [] [] [] []

/-! ### TaxonomyBuilder (taxonomy_builder.py) -/

/-- `TaxonomyBuilder._parse_taxonomy_response` (taxonomy_builder.py lines
183-194) is a stub in the source: it returns `[]` for every response. -/
def parseTaxonomyResponse (responseText : String) : List TaxonomyEdge :=
  []

/-- The batch loop of `propose_taxonomy_relations` (taxonomy_builder.py lines
124-135): one external call per batch, accumulating the parsed edges; a
failing call aborts the loop because the source has no exception handling. -/
def proposeLoop (acomplete : List (String × String) → Except String String) :
    List (List (String × String)) → List TaxonomyEdge →
      Except String (List TaxonomyEdge)
  | [], acc => Except.ok acc
  | batch :: rest, acc =>
    match acomplete batch with
    | Except.error msg => Except.error msg
    | Except.ok response =>
      proposeLoop acomplete rest (acc ++ parseTaxonomyResponse response)

/-- `TaxonomyBuilder.propose_taxonomy_relations` (taxonomy_builder.py lines
97-137): batches of 10 pairs; `acomplete` abstracts the external LLM
completion of the built prompt (a pure function of the batch) and may fail;
the source has no try/except, so `Except` failure propagates. -/
def proposeTaxonomyRelations
    (acomplete : List (String × String) → Except String String)
    (concept_pairs : List (String × String)) : Except String (List TaxonomyEdge) :=
  proposeLoop acomplete (chunks 10 concept_pairs) []

/-- `TaxonomyBuilder.cluster_concepts` (taxonomy_builder.py lines 59-95):
embeddings and DBSCAN are external collaborators; `labels` is the label
vector `fit_predict` returns for the concepts, in order (sklearn labels
noise points `-1`). The grouping loop (lines 89-93) groups every label,
including `-1`, into one dict entry. -/
def clusterConcepts (concepts : List ConceptRegistry) (labels : List Int) :
    List (Int × List String) :=
  groupFold (labels.zip (concepts.map (fun c => c.canonical_id)))

/-- The nested `for i ... for j in range(i+1, ...)` pair generation
(taxonomy_builder.py lines 249-251). -/
def pairsWithin : List String → List (String × String)
  | [] => []
  | x :: xs => xs.map (fun y => (x, y)) ++ pairsWithin xs

/-- The cold-start candidate-pair generation of `TaxonomyBuilder.build_taxonomy`
(taxonomy_builder.py lines 244-251): within each cluster with more than one
member, all ordered-index pairs. -/
def coldStartPairs (concepts : List ConceptRegistry) (labels : List Int) :
    List (String × String) :=
  (clusterConcepts concepts labels).flatMap
    (fun g => if 1 < g.2.length then pairsWithin g.2 else [])

/-- `TaxonomyBuilder.build_taxonomy`, cold-start branch (taxonomy_builder.py
lines 239-265): cluster, generate within-cluster pairs, propose relations,
then drop evidence-less edges when required. -/
def buildTaxonomyColdStart
    (acomplete : List (String × String) → Except String String)
    (concepts : List ConceptRegistry) (labels : List Int)
    (require_evidence : Bool) : Except String (List TaxonomyEdge) :=
  match proposeTaxonomyRelations acomplete (coldStartPairs concepts labels) with
  | Except.error msg => Except.error msg
  | Except.ok edges =>
    Except.ok (if require_evidence then
        edges.filter (fun e => !e.evidence_spans.isEmpty)
      else edges)

/-! ### Concrete fixtures used by the claim theorems -/

/-- Registry-entry maker for fixtures. -/
def mkConcept (id term category : String) : ConceptRegistry :=
  { canonical_id := id, canonical_term := term.toList, synonyms := [],
    definition_spans := [], example_spans := [], category := category,
    confidence := mkRat 4 5, extracted_by := "test" }

/-- The document text of the end-to-end scenario of the spec. -/
def c2text : List Char :=
  "GDPR requires data protection. Data protection mitigates Risk.".toList

def c2registry : List ConceptRegistry :=
  [ mkConcept "c-gdpr" "GDPR" "regulation",
    mkConcept "c-dp" "data protection" "practice",
    mkConcept "c-risk" "Risk" "risk" ]

def c2node : DocumentTreeNode :=
  { id := "n1", type := "block", level := 1, title := none, text := c2text,
    start_char := 0, end_char := 62, page_number := 1, parent_id := none,
    children_ids := [] }

/-- The single edge the pattern extractor actually produces on `c2text`:
the `\w+` subject group captures only the word `protection`, which has no
registry match, while `Risk` maps to its concept id. -/
def c2edge : KnowledgeGraphEdge :=
  { source_id := "protection", target_id := "c-risk", predicate := "mitigates",
    relationship_type := "semantic",
    evidence_spans :=
      [ { text := "protection mitigates Risk".toList, start_char := 36,
          end_char := 61, page_number := 1, section_id := some "n1",
          confidence := mkRat 3 5 } ],
    confidence := mkRat 3 5, schema_aligned := false, extracted_by := "openie" }

def c1doc : List Char := "See: A depends on B.".toList

def c1node : DocumentTreeNode :=
  { id := "w1", type := "block", level := 1, title := none,
    text := pySlice c1doc 5 19, start_char := 5, end_char := 19,
    page_number := 1, parent_id := none, children_ids := [] }

def edgeAB1 : KnowledgeGraphEdge :=
  { source_id := "A", target_id := "B", predicate := "depends_on",
    relationship_type := "dependency", evidence_spans := [],
    confidence := mkRat 9 10, schema_aligned := false, extracted_by := "llm" }

def edgeAB2 : KnowledgeGraphEdge :=
  { source_id := "A", target_id := "B", predicate := "mitigates",
    relationship_type := "mitigation", evidence_spans := [],
    confidence := mkRat 3 5, schema_aligned := false, extracted_by := "llm" }

/-- Two duplicates (same key) with equal confidence, differing elsewhere. -/
def dupEdge1 : KnowledgeGraphEdge :=
  { source_id := "A", target_id := "B", predicate := "related_to",
    relationship_type := "semantic", evidence_spans := [],
    confidence := mkRat 1 2, schema_aligned := false, extracted_by := "openie" }

def dupEdge2 : KnowledgeGraphEdge :=
  { source_id := "A", target_id := "B", predicate := "related_to",
    relationship_type := "semantic", evidence_spans := [],
    confidence := mkRat 1 2, schema_aligned := false, extracted_by := "llm" }

def c6cfg : PipelineConfig :=
  { require_evidence := true, min_confidence := mkRat 3 10, validate_schema := true }

/-- A knowledge-graph edge with evidence but confidence below 0.3. -/
def c6edge : KnowledgeGraphEdge :=
  { source_id := "A", target_id := "B", predicate := "depends_on",
    relationship_type := "dependency",
    evidence_spans :=
      [ { text := "A depends on B".toList, start_char := 0, end_char := 14,
          page_number := 1, section_id := none, confidence := mkRat 3 5 } ],
    confidence := mkRat 1 4, schema_aligned := false, extracted_by := "openie" }

/-- A taxonomy edge with evidence but confidence below 0.3. -/
def c6taxEdge : TaxonomyEdge :=
  { parent_id := "P", child_id := "C", relationship_type := "is_a",
    evidence_spans :=
      [ { text := "C is a P".toList, start_char := 0, end_char := 8,
          page_number := 1, section_id := none, confidence := mkRat 3 5 } ],
    confidence := mkRat 1 4, extracted_by := "llm" }

/-- An edge above the 0.3 threshold, for the confidence-summary witness. -/
def c8edge : KnowledgeGraphEdge :=
  { source_id := "A", target_id := "B", predicate := "depends_on",
    relationship_type := "dependency",
    evidence_spans :=
      [ { text := "A depends on B".toList, start_char := 0, end_char := 14,
          page_number := 1, section_id := none, confidence := mkRat 3 5 } ],
    confidence := mkRat 7 10, schema_aligned := false, extracted_by := "openie" }

/-- 21 concept pairs: three batches of sizes 10, 10 and 1. -/
def c7pairs : List (String × String) :=
  (List.range 21).map (fun i => ("a" ++ toString i, "b" ++ toString i))

/-- A collaborator that raises exactly on the batch holding pair 10,
that is, on batch 2 of 3. -/
def c7acomplete : List (String × String) → Except String String :=
  fun batch =>
    if ("a10", "b10") ∈ batch then Except.error "simulated timeout"
    else Except.ok "[]"

def c9concepts : List ConceptRegistry :=
  [ mkConcept "a" "alpha" "term", mkConcept "b" "beta" "term" ]

/-! ### Proof-side auxiliary definitions -/

/-- The value stored for `k`, `[]` when absent. -/
def getGroup {κ α : Type} [DecidableEq κ] (k : κ) (G : List (κ × List α)) :
    List α :=
  (alookup k G).getD []

/-- The running maximum of the `_resolve_duplicates` fold, per key:
no candidate yet, or the current best, replaced only on strictly greater
confidence. -/
def runMax (o : Option KnowledgeGraphEdge) (g : List KnowledgeGraphEdge) :
    Option KnowledgeGraphEdge :=
  g.foldl (fun o e =>
    match o with
    | none => some e
    | some c => if c.confidence < e.confidence then some e else some c) o

/-! ### Lemmas: association lists and grouping -/

section AssocLemmas

variable {κ α : Type} [DecidableEq κ]

theorem alookup_eq_none {k : κ} {ps : List (κ × α)} :
    alookup k ps = none ↔ k ∉ ps.map Prod.fst := by
  induction ps with
  | nil => simp [alookup]
  | cons p ps ih =>
    by_cases h : p.1 = k
    · simp [alookup, h]
    · simp [alookup, h, ih, Ne.symm h]

theorem alookup_mem {k : κ} {v : α} {ps : List (κ × α)}
    (h : alookup k ps = some v) : (k, v) ∈ ps := by
  induction ps with
  | nil => simp [alookup] at h
  | cons p ps ih =>
    obtain ⟨pk, pv⟩ := p
    by_cases hp : pk = k
    · simp [alookup, hp] at h
      subst hp
      subst h
      exact List.mem_cons_self _ _
    · simp [alookup, hp] at h
      exact List.mem_cons_of_mem _ (ih h)

theorem alookup_of_mem_nodup {k : κ} {v : α} {ps : List (κ × α)}
    (hnd : (ps.map Prod.fst).Nodup) (h : (k, v) ∈ ps) :
    alookup k ps = some v := by
  induction ps with
  | nil => simp at h
  | cons p ps ih =>
    simp only [List.map_cons, List.nodup_cons] at hnd
    rcases List.mem_cons.mp h with h1 | h1
    · subst h1
      simp [alookup]
    · have hk : p.1 ≠ k := by
        intro he
        exact hnd.1 (he ▸ (List.mem_map.mpr ⟨(k, v), h1, rfl⟩))
      simp [alookup, hk, ih hnd.2 h1]

theorem alookup_insertGroup_self (k : κ) (a : α) (G : List (κ × List α)) :
    alookup k (insertGroup k a G) = some (getGroup k G ++ [a]) := by
  induction G with
  | nil => simp [insertGroup, alookup, getGroup]
  | cons g gs ih =>
    by_cases h : g.1 = k
    · simp [insertGroup, h, alookup, getGroup]
    · simp [insertGroup, h, alookup, ih, getGroup]

theorem alookup_insertGroup_ne {k k' : κ} (h : k' ≠ k) (a : α)
    (G : List (κ × List α)) :
    alookup k (insertGroup k' a G) = alookup k G := by
  induction G with
  | nil => simp [insertGroup, alookup, h]
  | cons g gs ih =>
    by_cases hg : g.1 = k'
    · simp [insertGroup, hg, alookup, h, hg ▸ h]
    · simp only [insertGroup, hg, if_false, alookup]
      by_cases hgk : g.1 = k <;> simp [hgk, ih]

theorem getGroup_foldl_insert (k : κ) (ps : List (κ × α)) :
    ∀ G : List (κ × List α),
      getGroup k (ps.foldl (fun acc p => insertGroup p.1 p.2 acc) G) =
        getGroup k G ++ (ps.filter (fun p => p.1 = k)).map Prod.snd := by
  induction ps with
  | nil => intro G; simp
  | cons p ps ih =>
    intro G
    by_cases h : p.1 = k
    · subst h
      rw [List.foldl_cons, ih]
      rw [getGroup, alookup_insertGroup_self]
      simp [List.filter_cons, getGroup]
    · rw [List.foldl_cons, ih, List.filter_cons]
      rw [getGroup, alookup_insertGroup_ne h]
      simp [h, getGroup]

theorem alookup_foldl_insert_eq_none (k : κ) (ps : List (κ × α)) :
    ∀ G : List (κ × List α),
      alookup k (ps.foldl (fun acc p => insertGroup p.1 p.2 acc) G) = none ↔
        alookup k G = none ∧ ps.filter (fun p => p.1 = k) = [] := by
  induction ps with
  | nil => intro G; simp
  | cons p ps ih =>
    intro G
    by_cases h : p.1 = k
    · rw [List.foldl_cons, ih]
      subst h
      simp [alookup_insertGroup_self, List.filter_cons]
    · rw [List.foldl_cons, ih]
      rw [alookup_insertGroup_ne h, List.filter_cons]
      simp [h]

theorem getGroup_groupFold (k : κ) (ps : List (κ × α)) :
    getGroup k (groupFold ps) = (ps.filter (fun p => p.1 = k)).map Prod.snd := by
  rw [groupFold, getGroup_foldl_insert]
  simp [getGroup, alookup]

theorem alookup_groupFold_eq_none (k : κ) (ps : List (κ × α)) :
    alookup k (groupFold ps) = none ↔ ps.filter (fun p => p.1 = k) = [] := by
  rw [groupFold, alookup_foldl_insert_eq_none]
  simp [alookup]

theorem alookup_groupFold_of_filter_ne (k : κ) (ps : List (κ × α))
    (h : ps.filter (fun p => p.1 = k) ≠ []) :
    alookup k (groupFold ps) =
      some ((ps.filter (fun p => p.1 = k)).map Prod.snd) := by
  rcases ho : alookup k (groupFold ps) with _ | g
  · exact absurd ((alookup_groupFold_eq_none k ps).mp ho) h
  · have := getGroup_groupFold k ps
    rw [getGroup, ho] at this
    simp at this
    rw [this]

theorem keys_insertGroup (k : κ) (a : α) (G : List (κ × List α)) :
    (insertGroup k a G).map Prod.fst =
      if k ∈ G.map Prod.fst then G.map Prod.fst else G.map Prod.fst ++ [k] := by
  induction G with
  | nil => simp [insertGroup]
  | cons g gs ih =>
    by_cases h : g.1 = k
    · simp [insertGroup, h]
    · simp only [insertGroup, h, if_false, List.map_cons, ih, List.mem_cons]
      by_cases hm : k ∈ gs.map Prod.fst <;> simp [hm, Ne.symm h]

theorem nodup_keys_foldl_insert (ps : List (κ × α)) :
    ∀ G : List (κ × List α), (G.map Prod.fst).Nodup →
      ((ps.foldl (fun acc p => insertGroup p.1 p.2 acc) G).map Prod.fst).Nodup := by
  induction ps with
  | nil => intro G h; simpa using h
  | cons p ps ih =>
    intro G h
    rw [List.foldl_cons]
    apply ih
    rw [keys_insertGroup]
    by_cases hm : p.1 ∈ G.map Prod.fst
    · simpa [hm] using h
    · simp only [hm, if_false]
      simpa [List.nodup_append, hm] using h

theorem nodup_keys_groupFold (ps : List (κ × α)) :
    ((groupFold ps).map Prod.fst).Nodup := by
  exact nodup_keys_foldl_insert ps [] (by simp)

theorem mem_groupFold_alookup {k : κ} {g : List α} {ps : List (κ × α)}
    (h : (k, g) ∈ groupFold ps) :
    alookup k (groupFold ps) = some g :=
  alookup_of_mem_nodup (nodup_keys_groupFold ps) h

theorem mem_groupFold_eq_filter {k : κ} {g : List α} {ps : List (κ × α)}
    (h : (k, g) ∈ groupFold ps) :
    g = (ps.filter (fun p => p.1 = k)).map Prod.snd := by
  have := mem_groupFold_alookup h
  have h2 := getGroup_groupFold k ps
  rw [getGroup, this] at h2
  simpa using h2

theorem mem_groupFold_ne_nil {k : κ} {g : List α} {ps : List (κ × α)}
    (h : (k, g) ∈ groupFold ps) : g ≠ [] := by
  intro he
  have hf := mem_groupFold_eq_filter h
  rw [he] at hf
  have hnone : alookup k (groupFold ps) = none :=
    (alookup_groupFold_eq_none k ps).mpr (by
      cases hfe : ps.filter (fun p => p.1 = k) with
      | nil => rfl
      | cons q qs => rw [hfe] at hf; simp at hf)
  rw [mem_groupFold_alookup h, he] at hnone
  exact absurd hnone (by simp)

end AssocLemmas

/-! ### Lemmas: generic fold/insert structure -/

section FoldLemmas

variable {κ α β γ : Type} [DecidableEq κ]

theorem flatMap_congr_mem {A : List β} {f g : β → List γ}
    (h : ∀ p ∈ A, f p = g p) : A.flatMap f = A.flatMap g := by
  induction A with
  | nil => rfl
  | cons a A ih =>
    simp only [List.flatMap_cons]
    rw [h a (List.mem_cons_self a A), ih (fun p hp => h p (List.mem_cons_of_mem a hp))]

theorem filter_fst_map_key (f : α → κ) (E : List α) (k : κ) :
    ((E.map (fun e => (f e, e))).filter (fun p => p.1 = k)).map Prod.snd =
      E.filter (fun e => f e = k) := by
  induction E with
  | nil => rfl
  | cons e E ih =>
    by_cases h : f e = k <;> simp [List.filter_cons, h, ih]

theorem insertGroup_append_of_not_mem {k : κ} {acc1 : List (κ × List α)}
    (h : k ∉ acc1.map Prod.fst) (a : α) (acc2 : List (κ × List α)) :
    insertGroup k a (acc1 ++ acc2) = acc1 ++ insertGroup k a acc2 := by
  induction acc1 with
  | nil => simp
  | cons g gs ih =>
    simp only [List.map_cons, List.mem_cons] at h
    push_neg at h
    simp only [List.cons_append, insertGroup, Ne.symm h.1, if_false]
    show g :: insertGroup k a (gs ++ acc2) = g :: (gs ++ insertGroup k a acc2)
    rw [ih h.2]

theorem foldl_insert_append {ps : List (κ × α)} {acc1 : List (κ × List α)}
    (h : ∀ p ∈ ps, p.1 ∉ acc1.map Prod.fst) (acc2 : List (κ × List α)) :
    ps.foldl (fun acc p => insertGroup p.1 p.2 acc) (acc1 ++ acc2) =
      acc1 ++ ps.foldl (fun acc p => insertGroup p.1 p.2 acc) acc2 := by
  induction ps generalizing acc2 with
  | nil => simp
  | cons p ps ih =>
    simp only [List.foldl_cons]
    rw [insertGroup_append_of_not_mem (h p (List.mem_cons_self p ps))]
    exact ih (fun q hq => h q (List.mem_cons_of_mem p hq)) _

theorem foldl_insert_uniform {k : κ} {ps : List (κ × α)}
    (h : ∀ p ∈ ps, p.1 = k) :
    ∀ pre : List α,
      ps.foldl (fun acc p => insertGroup p.1 p.2 acc) [(k, pre)] =
        [(k, pre ++ ps.map Prod.snd)] := by
  induction ps with
  | nil => intro pre; simp
  | cons p ps ih =>
    intro pre
    have hk : p.1 = k := h p (List.mem_cons_self p ps)
    simp only [List.foldl_cons, insertGroup, hk, if_true]
    rw [ih (fun q hq => h q (List.mem_cons_of_mem p hq)) (pre ++ [p.2])]
    simp

theorem groupFold_blocks (A : List (κ × List α))
    (hn : (A.map Prod.fst).Nodup) (hne : ∀ p ∈ A, p.2 ≠ []) :
    groupFold (A.flatMap (fun p => p.2.map (fun a => (p.1, a)))) = A := by
  induction A with
  | nil => rfl
  | cons p A ih =>
    obtain ⟨k, g⟩ := p
    simp only [List.flatMap_cons, groupFold, List.foldl_append]
    rcases g with _ | ⟨a, g'⟩
    · exact absurd rfl (hne (k, []) (List.mem_cons_self _ _))
    · have h1 : ((a :: g').map (fun x => (k, x))).foldl
          (fun acc p => insertGroup p.1 p.2 acc) [] = [(k, a :: g')] := by
        simp only [List.map_cons, List.foldl_cons, insertGroup]
        rw [foldl_insert_uniform (by
          intro q hq
          rw [List.mem_map] at hq
          obtain ⟨x, _, hx⟩ := hq
          rw [← hx]) [a]]
        simp
      rw [h1]
      simp only [List.map_cons, List.nodup_cons] at hn
      have h2 : ∀ q ∈ A.flatMap (fun p => p.2.map (fun a => (p.1, a))),
          q.1 ∉ ([(k, a :: g')].map Prod.fst) := by
        intro q hq
        rw [List.mem_flatMap] at hq
        obtain ⟨r, hr, hq2⟩ := hq
        rw [List.mem_map] at hq2
        obtain ⟨x, _, hx⟩ := hq2
        simp only [List.map_cons, List.map_nil, List.mem_singleton]
        intro hqk
        apply hn.1
        rw [← hx] at hqk
        simp at hqk
        rw [← hqk]
        exact List.mem_map.mpr ⟨r, hr, rfl⟩
      have h3 := foldl_insert_append h2 ([] : List (κ × List α))
      simp only [List.append_nil] at h3
      rw [h3]
      have h4 := ih hn.2 (fun q hq => hne q (List.mem_cons_of_mem _ hq))
      rw [groupFold] at h4
      rw [h4]
      simp

end FoldLemmas

/-! ### Lemmas: contradiction resolution -/

theorem maxByConfidence_mem (t : List KnowledgeGraphEdge) :
    ∀ h : KnowledgeGraphEdge, maxByConfidence h t ∈ h :: t := by
  induction t with
  | nil => intro h; simp [maxByConfidence]
  | cons e t ih =>
    intro h
    simp only [maxByConfidence, List.foldl_cons]
    by_cases hc : h.confidence < e.confidence
    · simp only [hc, if_true]
      have := ih e
      simp only [maxByConfidence] at this
      rcases List.mem_cons.mp this with h1 | h1
      · rw [h1]; simp
      · simp [h1]
    · simp only [hc, if_false]
      have := ih h
      simp only [maxByConfidence] at this
      rcases List.mem_cons.mp this with h1 | h1
      · rw [h1]; simp
      · simp [h1]

theorem maxByConfidence_ge (t : List KnowledgeGraphEdge) :
    ∀ h : KnowledgeGraphEdge,
      ∀ e ∈ h :: t, e.confidence ≤ (maxByConfidence h t).confidence := by
  induction t with
  | nil =>
    intro h e he
    simp at he
    simp [maxByConfidence, he]
  | cons x t ih =>
    intro h e he
    simp only [maxByConfidence, List.foldl_cons]
    by_cases hc : h.confidence < x.confidence
    · simp only [hc, if_true]
      rcases List.mem_cons.mp he with h1 | h1
      · subst h1
        exact le_trans (le_of_lt hc) (ih x x (List.mem_cons_self x t))
      · exact ih x e h1
    · simp only [hc, if_false]
      rcases List.mem_cons.mp he with h1 | h1
      · rw [h1]
        exact ih h h (List.mem_cons_self h t)
      · rcases List.mem_cons.mp h1 with h2 | h2
        · rw [h2]
          exact le_trans (le_of_not_lt hc) (ih h h (List.mem_cons_self h t))
        · exact ih h e (List.mem_cons_of_mem h h2)

theorem resolveGroup_subset {e : KnowledgeGraphEdge}
    {g : List KnowledgeGraphEdge} (h : e ∈ resolveGroup g) : e ∈ g := by
  match g with
  | [] => simp [resolveGroup] at h
  | x :: t =>
    simp only [resolveGroup] at h
    split at h
    · exact h
    · simp only [List.mem_singleton] at h
      rw [h]
      exact maxByConfidence_mem t x

theorem resolveGroup_ne_nil {g : List KnowledgeGraphEdge} (h : g ≠ []) :
    resolveGroup g ≠ [] := by
  match g with
  | [] => exact absurd rfl h
  | x :: t =>
    simp only [resolveGroup]
    split <;> simp

theorem pairwise_eq_of_mem {l : List String} (h : l.Pairwise (· = ·)) :
    ∀ a ∈ l, ∀ b ∈ l, a = b := by
  induction h with
  | nil => intro a ha; simp at ha
  | @cons x l hx hl ih =>
    intro a ha b hb
    rcases List.mem_cons.mp ha with h1 | h1 <;>
      rcases List.mem_cons.mp hb with h2 | h2
    · rw [h1, h2]
    · rw [h1]; exact hx b h2
    · rw [h2]; exact (hx a h1).symm
    · exact ih a h1 b h2

theorem map_flatMap_helper {β γ δ : Type} {f : β → List γ} {g : γ → δ}
    (A : List β) : (A.flatMap f).map g = A.flatMap (fun b => (f b).map g) := by
  induction A with
  | nil => rfl
  | cons a A ih => simp [List.flatMap_cons, ih]

theorem flatMap_map_helper {β β' γ : Type} {f : β → β'} {g : β' → List γ}
    (A : List β) : (A.map f).flatMap g = A.flatMap (fun b => g (f b)) := by
  induction A with
  | nil => rfl
  | cons a A ih => simp [List.flatMap_cons, ih]

theorem group_of_resolveContradictions {E : List KnowledgeGraphEdge}
    {k : String × String} {g : List KnowledgeGraphEdge}
    (h : (k, g) ∈ groupFold (E.map (fun e => (pairKey e, e)))) :
    g = E.filter (fun e => pairKey e = k) :=
  (mem_groupFold_eq_filter h).trans (filter_fst_map_key pairKey E k)

theorem group_key_of_resolveContradictions {E : List KnowledgeGraphEdge} :
    ∀ p ∈ groupFold (E.map (fun e => (pairKey e, e))),
      ∀ e ∈ p.2, pairKey e = p.1 := by
  intro p hp e he
  obtain ⟨k, g⟩ := p
  rw [group_of_resolveContradictions hp] at he
  exact of_decide_eq_true (List.mem_filter.mp he).2

theorem mem_resolveContradictions {e : KnowledgeGraphEdge}
    {E : List KnowledgeGraphEdge} (h : e ∈ resolveContradictions E) : e ∈ E := by
  rw [resolveContradictions, List.mem_flatMap] at h
  obtain ⟨p, hp, he⟩ := h
  have h2 := resolveGroup_subset he
  obtain ⟨k, g⟩ := p
  rw [group_of_resolveContradictions hp] at h2
  exact (List.mem_filter.mp h2).1

theorem filter_flatMap_resolveGroup
    (A : List ((String × String) × List KnowledgeGraphEdge)) (k : String × String)
    (hn : (A.map Prod.fst).Nodup)
    (hu : ∀ p ∈ A, ∀ e ∈ p.2, pairKey e = p.1) :
    (A.flatMap (fun p => resolveGroup p.2)).filter (fun e => pairKey e = k) =
      resolveGroup (getGroup k A) := by
  induction A with
  | nil => simp [getGroup, alookup, resolveGroup]
  | cons p A ih =>
    obtain ⟨k', g⟩ := p
    simp only [List.flatMap_cons, List.filter_append]
    simp only [List.map_cons, List.nodup_cons] at hn
    have htail := ih hn.2 (fun q hq e he => hu q (List.mem_cons_of_mem _ hq) e he)
    by_cases hk : k' = k
    · subst hk
      have hfull : (resolveGroup g).filter (fun e => pairKey e = k') = resolveGroup g :=
        List.filter_eq_self.mpr (fun e he => by
          have := hu (k', g) (List.mem_cons_self _ _) e (resolveGroup_subset he)
          simp [this])
      have hnone2 : getGroup k' A = [] := by
        rw [getGroup, alookup_eq_none.mpr hn.1]
        rfl
      rw [hfull, htail, hnone2]
      have : resolveGroup ([] : List KnowledgeGraphEdge) = [] := rfl
      rw [this, List.append_nil]
      simp [getGroup, alookup]
    · have hnil : (resolveGroup g).filter (fun e => pairKey e = k) = [] :=
        List.filter_eq_nil_iff.mpr (fun e he => by
          have := hu (k', g) (List.mem_cons_self _ _) e (resolveGroup_subset he)
          simp [this, hk])
      rw [hnil, List.nil_append, htail]
      have : getGroup k ((k', g) :: A) = getGroup k A := by
        simp [getGroup, alookup, hk]
      rw [this]

theorem filter_resolveContradictions (E : List KnowledgeGraphEdge)
    (k : String × String) :
    (resolveContradictions E).filter (fun e => pairKey e = k) =
      resolveGroup (E.filter (fun e => pairKey e = k)) := by
  rw [resolveContradictions]
  rw [filter_flatMap_resolveGroup _ k (nodup_keys_groupFold _)
    group_key_of_resolveContradictions]
  rw [getGroup_groupFold, filter_fst_map_key]

theorem resolveGroup_idem (g : List KnowledgeGraphEdge) :
    resolveGroup (resolveGroup g) = resolveGroup g := by
  match g with
  | [] => rfl
  | x :: t =>
    by_cases hp : ((x :: t).map (fun e => e.predicate)).Pairwise (· = ·)
    · have h1 : resolveGroup (x :: t) = x :: t := by
        rw [resolveGroup, if_pos hp]
      rw [h1]
      exact h1
    · have h1 : resolveGroup (x :: t) = [maxByConfidence x t] := by
        rw [resolveGroup, if_neg hp]
      rw [h1]
      rw [resolveGroup, if_pos (by simp)]

theorem resolveContradictions_idem (E : List KnowledgeGraphEdge) :
    resolveContradictions (resolveContradictions E) = resolveContradictions E := by
  have hu := group_key_of_resolveContradictions (E := E)
  have hn := nodup_keys_groupFold (E.map (fun e => (pairKey e, e)))
  have ha : (resolveContradictions E).map (fun e => (pairKey e, e)) =
      ((groupFold (E.map (fun e => (pairKey e, e)))).map
        (fun p => (p.1, resolveGroup p.2))).flatMap
        (fun p => p.2.map (fun a => (p.1, a))) := by
    rw [resolveContradictions, map_flatMap_helper, flatMap_map_helper]
    apply flatMap_congr_mem
    intro p hp
    apply List.map_congr_left
    intro e he
    rw [hu p hp e (resolveGroup_subset he)]
  have hb : groupFold ((resolveContradictions E).map (fun e => (pairKey e, e))) =
      (groupFold (E.map (fun e => (pairKey e, e)))).map
        (fun p => (p.1, resolveGroup p.2)) := by
    rw [ha]
    apply groupFold_blocks
    · rw [List.map_map]
      exact hn
    · intro p hp
      rw [List.mem_map] at hp
      obtain ⟨q, hq, hqe⟩ := hp
      obtain ⟨k, g⟩ := q
      rw [← hqe]
      exact resolveGroup_ne_nil (mem_groupFold_ne_nil hq)
  show (groupFold ((resolveContradictions E).map (fun e => (pairKey e, e)))).flatMap
      (fun g => resolveGroup g.2) = resolveContradictions E
  rw [hb, flatMap_map_helper]
  rw [flatMap_congr_mem (fun p _ => resolveGroup_idem p.2)]
  rfl

/-! ### Lemmas: duplicate resolution -/

section DupLemmas

theorem keys_replaceVal {κ α : Type} [DecidableEq κ] (k : κ) (a : α)
    (ps : List (κ × α)) : (replaceVal k a ps).map Prod.fst = ps.map Prod.fst := by
  induction ps with
  | nil => rfl
  | cons p ps ih =>
    by_cases h : p.1 = k
    · simp [replaceVal, h]
    · simp [replaceVal, h, ih]

theorem mem_replaceVal {κ α : Type} [DecidableEq κ] {k : κ} {a : α}
    {p : κ × α} {ps : List (κ × α)} (h : p ∈ replaceVal k a ps) :
    p = (k, a) ∨ p ∈ ps := by
  induction ps with
  | nil => simp [replaceVal] at h
  | cons q ps ih =>
    by_cases hq : q.1 = k
    · simp only [replaceVal, hq, if_true, List.mem_cons] at h
      rcases h with h | h
      · exact Or.inl h
      · exact Or.inr (List.mem_cons_of_mem _ h)
    · simp only [replaceVal, hq, if_false, List.mem_cons] at h
      rcases h with h | h
      · exact Or.inr (h ▸ List.mem_cons_self _ _)
      · rcases ih h with h1 | h1
        · exact Or.inl h1
        · exact Or.inr (List.mem_cons_of_mem _ h1)

theorem alookup_replaceVal_self {κ α : Type} [DecidableEq κ] (k : κ) (a : α)
    (ps : List (κ × α)) :
    alookup k (replaceVal k a ps) = (alookup k ps).map (fun _ => a) := by
  induction ps with
  | nil => rfl
  | cons p ps ih =>
    by_cases h : p.1 = k
    · simp [replaceVal, h, alookup]
    · simp [replaceVal, h, alookup, ih]

theorem alookup_replaceVal_ne {κ α : Type} [DecidableEq κ] {k k' : κ}
    (h : k' ≠ k) (a : α) (ps : List (κ × α)) :
    alookup k (replaceVal k' a ps) = alookup k ps := by
  induction ps with
  | nil => rfl
  | cons p ps ih =>
    by_cases hp : p.1 = k'
    · simp [replaceVal, hp, alookup, h, hp ▸ h]
    · simp only [replaceVal, hp, if_false, alookup]
      by_cases hpk : p.1 = k <;> simp [hpk, ih]

theorem alookup_append_of_none {κ α : Type} [DecidableEq κ] {k : κ}
    {xs : List (κ × α)} (h : alookup k xs = none) (ys : List (κ × α)) :
    alookup k (xs ++ ys) = alookup k ys := by
  induction xs with
  | nil => simp
  | cons p ps ih =>
    by_cases hp : p.1 = k
    · simp [alookup, hp] at h
    · simp only [alookup, hp, if_false] at h
      simp only [List.cons_append, alookup, hp, if_false]
      exact ih h

theorem alookup_append_of_some {κ α : Type} [DecidableEq κ] {k : κ} {v : α}
    {xs : List (κ × α)} (h : alookup k xs = some v) (ys : List (κ × α)) :
    alookup k (xs ++ ys) = some v := by
  induction xs with
  | nil => simp [alookup] at h
  | cons p ps ih =>
    by_cases hp : p.1 = k
    · simp only [alookup, hp, if_true] at h
      simp [alookup, hp, h]
    · simp only [alookup, hp, if_false] at h
      simp only [List.cons_append, alookup, hp, if_false]
      exact ih h

theorem dupStep_eq_none
    {seen : List ((String × String × String) × KnowledgeGraphEdge)}
    {e : KnowledgeGraphEdge} (h : alookup (tripleKey e) seen = none) :
    dupStep seen e = seen ++ [(tripleKey e, e)] := by
  rw [dupStep, h]

theorem dupStep_eq_some
    {seen : List ((String × String × String) × KnowledgeGraphEdge)}
    {e cur : KnowledgeGraphEdge} (h : alookup (tripleKey e) seen = some cur) :
    dupStep seen e =
      if cur.confidence < e.confidence then replaceVal (tripleKey e) e seen
      else seen := by
  rw [dupStep, h]

theorem alookup_foldl_dupStep (E : List KnowledgeGraphEdge) :
    ∀ (seen : List ((String × String × String) × KnowledgeGraphEdge))
      (k : String × String × String),
      alookup k (E.foldl dupStep seen) =
        runMax (alookup k seen) (E.filter (fun e => tripleKey e = k)) := by
  induction E with
  | nil => intro seen k; simp [runMax]
  | cons e E ih =>
    intro seen k
    rw [List.foldl_cons, List.filter_cons, ih]
    by_cases hke : tripleKey e = k
    · subst hke
      rw [if_pos (by simp)]
      rcases hcur : alookup (tripleKey e) seen with _ | cur
      · rw [dupStep_eq_none hcur, alookup_append_of_none hcur]
        have h2 : alookup (tripleKey e) [(tripleKey e, e)] = some e := by
          simp [alookup]
        rw [h2]
        rfl
      · rw [dupStep_eq_some hcur]
        by_cases hlt : cur.confidence < e.confidence
        · rw [if_pos hlt, alookup_replaceVal_self, hcur]
          simp [runMax, hlt]
        · rw [if_neg hlt, hcur]
          simp [runMax, hlt]
    · rw [if_neg (by simp [hke])]
      have h1 : alookup k (dupStep seen e) = alookup k seen := by
        rcases hcur : alookup (tripleKey e) seen with _ | cur
        · rw [dupStep_eq_none hcur]
          rcases hs : alookup k seen with _ | v
          · rw [alookup_append_of_none hs]
            simp [alookup, hke]
          · exact alookup_append_of_some hs _
        · rw [dupStep_eq_some hcur]
          by_cases hlt : cur.confidence < e.confidence
          · rw [if_pos hlt, alookup_replaceVal_ne hke]
          · rw [if_neg hlt]
      rw [h1]

theorem foldl_dupStep_key_inv (E : List KnowledgeGraphEdge) :
    ∀ seen, (∀ p ∈ seen, tripleKey p.2 = p.1) →
      ∀ p ∈ E.foldl dupStep seen, tripleKey p.2 = p.1 := by
  induction E with
  | nil => intro seen h; exact h
  | cons e E ih =>
    intro seen h
    rw [List.foldl_cons]
    apply ih
    intro p hp
    rcases hcur : alookup (tripleKey e) seen with _ | cur
    · rw [dupStep_eq_none hcur] at hp
      rcases List.mem_append.mp hp with h1 | h1
      · exact h p h1
      · simp only [List.mem_singleton] at h1
        rw [h1]
    · rw [dupStep_eq_some hcur] at hp
      by_cases hlt : cur.confidence < e.confidence
      · rw [if_pos hlt] at hp
        rcases mem_replaceVal hp with h1 | h1
        · rw [h1]
        · exact h p h1
      · rw [if_neg hlt] at hp
        exact h p hp

theorem foldl_dupStep_nodup (E : List KnowledgeGraphEdge) :
    ∀ seen, ((seen.map Prod.fst).Nodup) →
      (((E.foldl dupStep seen).map Prod.fst)).Nodup := by
  induction E with
  | nil => intro seen h; exact h
  | cons e E ih =>
    intro seen h
    rw [List.foldl_cons]
    apply ih
    rcases hcur : alookup (tripleKey e) seen with _ | cur
    · rw [dupStep_eq_none hcur]
      have hnot : tripleKey e ∉ seen.map Prod.fst := alookup_eq_none.mp hcur
      simp [List.nodup_append, h, hnot]
    · rw [dupStep_eq_some hcur]
      by_cases hlt : cur.confidence < e.confidence
      · rw [if_pos hlt, keys_replaceVal]
        exact h
      · rw [if_neg hlt]
        exact h

theorem mem_resolveDuplicates_iff {x : KnowledgeGraphEdge}
    {E : List KnowledgeGraphEdge} :
    x ∈ resolveDuplicates E ↔
      runMax none (E.filter (fun e => tripleKey e = tripleKey x)) = some x := by
  rw [resolveDuplicates]
  constructor
  · intro h
    rw [List.mem_map] at h
    obtain ⟨p, hp, hpx⟩ := h
    have hkey := foldl_dupStep_key_inv E [] (by simp) p hp
    rw [hpx] at hkey
    have hnd := foldl_dupStep_nodup E [] (by simp)
    have hl : alookup (tripleKey x) (E.foldl dupStep []) = some x := by
      have hpeq : p = (tripleKey x, x) := by
        have h1 : p.1 = tripleKey x := by rw [← hkey]
        have h2 : p.2 = x := hpx
        rw [← h1, ← h2]
      rw [hpeq] at hp
      exact alookup_of_mem_nodup hnd hp
    rw [alookup_foldl_dupStep E [] (tripleKey x)] at hl
    simpa [alookup] using hl
  · intro h
    have hl : alookup (tripleKey x) (E.foldl dupStep []) = some x := by
      rw [alookup_foldl_dupStep E [] (tripleKey x)]
      simpa [alookup] using h
    exact List.mem_map.mpr ⟨(tripleKey x, x), alookup_mem hl, rfl⟩

theorem runMax_some_ex (g : List KnowledgeGraphEdge) :
    ∀ c, ∃ m, runMax (some c) g = some m := by
  induction g with
  | nil => intro c; exact ⟨c, rfl⟩
  | cons e g ih =>
    intro c
    simp only [runMax, List.foldl_cons]
    by_cases h : c.confidence < e.confidence
    · simp only [h, if_true]
      exact ih e
    · simp only [h, if_false]
      exact ih c

theorem runMax_char (g : List KnowledgeGraphEdge) :
    ∀ c m, runMax (some c) g = some m →
      (m = c ∨ m ∈ g) ∧ c.confidence ≤ m.confidence ∧
        ∀ e ∈ g, e.confidence ≤ m.confidence := by
  induction g with
  | nil =>
    intro c m h
    simp only [runMax, List.foldl_nil, Option.some_inj] at h
    subst h
    exact ⟨Or.inl rfl, le_refl _, by simp⟩
  | cons e g ih =>
    intro c m h
    simp only [runMax, List.foldl_cons] at h
    by_cases hc : c.confidence < e.confidence
    · rw [if_pos hc] at h
      obtain ⟨hm, hle, hall⟩ := ih e m h
      refine ⟨?_, le_trans (le_of_lt hc) hle, ?_⟩
      · rcases hm with h1 | h1
        · exact Or.inr (h1 ▸ List.mem_cons_self _ _)
        · exact Or.inr (List.mem_cons_of_mem _ h1)
      · intro x hx
        rcases List.mem_cons.mp hx with h1 | h1
        · exact h1 ▸ hle
        · exact hall x h1
    · rw [if_neg hc] at h
      obtain ⟨hm, hle, hall⟩ := ih c m h
      refine ⟨?_, hle, ?_⟩
      · rcases hm with h1 | h1
        · exact Or.inl h1
        · exact Or.inr (List.mem_cons_of_mem _ h1)
      · intro x hx
        rcases List.mem_cons.mp hx with h1 | h1
        · exact h1 ▸ le_trans (le_of_not_lt hc) hle
        · exact hall x h1

theorem runMax_none_char {g : List KnowledgeGraphEdge} {m : KnowledgeGraphEdge}
    (h : runMax none g = some m) :
    m ∈ g ∧ ∀ e ∈ g, e.confidence ≤ m.confidence := by
  match g with
  | [] => simp [runMax] at h
  | e :: g =>
    have h2 : runMax (some e) g = some m := h
    obtain ⟨hm, hle, hall⟩ := runMax_char g e m h2
    refine ⟨?_, ?_⟩
    · rcases hm with h1 | h1
      · exact h1 ▸ List.mem_cons_self _ _
      · exact List.mem_cons_of_mem _ h1
    · intro x hx
      rcases List.mem_cons.mp hx with h1 | h1
      · exact h1 ▸ hle
      · exact hall x h1

theorem runMax_const {g : List KnowledgeGraphEdge} {c : KnowledgeGraphEdge}
    (h : ∀ e ∈ g, ¬ c.confidence < e.confidence) :
    runMax (some c) g = some c := by
  induction g with
  | nil => rfl
  | cons e g ih =>
    simp only [runMax, List.foldl_cons]
    rw [if_neg (h e (List.mem_cons_self _ _))]
    exact ih (fun x hx => h x (List.mem_cons_of_mem _ hx))

theorem resolveDuplicates_pairwise (E : List KnowledgeGraphEdge) :
    (resolveDuplicates E).Pairwise (fun a b => tripleKey a ≠ tripleKey b) := by
  have hnd := foldl_dupStep_nodup E [] (by simp)
  have hkey := foldl_dupStep_key_inv E [] (by simp)
  have hmap : (resolveDuplicates E).map tripleKey =
      (E.foldl dupStep []).map Prod.fst := by
    rw [resolveDuplicates, List.map_map]
    exact List.map_congr_left (fun p hp => hkey p hp)
  have : ((resolveDuplicates E).map tripleKey).Nodup := hmap ▸ hnd
  exact List.pairwise_map.mp this

theorem resolveDuplicates_of_pairwise {E : List KnowledgeGraphEdge}
    (h : E.Pairwise (fun a b => tripleKey a ≠ tripleKey b)) :
    resolveDuplicates E = E := by
  have main : ∀ (E' : List KnowledgeGraphEdge)
      (seen : List ((String × String × String) × KnowledgeGraphEdge)),
      E'.Pairwise (fun a b => tripleKey a ≠ tripleKey b) →
      (∀ e ∈ E', tripleKey e ∉ seen.map Prod.fst) →
      E'.foldl dupStep seen = seen ++ E'.map (fun e => (tripleKey e, e)) := by
    intro E'
    induction E' with
    | nil => intro seen _ _; simp
    | cons e E' ih =>
      intro seen hpw hfresh
      rw [List.foldl_cons]
      have hnone : alookup (tripleKey e) seen = none :=
        alookup_eq_none.mpr (hfresh e (List.mem_cons_self _ _))
      have hstep : dupStep seen e = seen ++ [(tripleKey e, e)] := by
        rw [dupStep, hnone]
      rw [hstep]
      rcases List.pairwise_cons.mp hpw with ⟨hhead, htail⟩
      rw [ih _ htail (by
        intro x hx
        simp only [List.map_append, List.map_cons, List.map_nil]
        rw [List.mem_append]
        push_neg
        refine ⟨hfresh x (List.mem_cons_of_mem _ hx), ?_⟩
        simp only [List.mem_singleton]
        exact fun hc => (hhead x hx) hc.symm)]
      simp
  rw [resolveDuplicates, main E [] h (by simp)]
  rw [List.nil_append, List.map_map]
  show List.map id E = E
  exact List.map_id E

theorem resolveDuplicates_idem (E : List KnowledgeGraphEdge) :
    resolveDuplicates (resolveDuplicates E) = resolveDuplicates E :=
  resolveDuplicates_of_pairwise (resolveDuplicates_pairwise E)

end DupLemmas

/-! ### Lemmas: the pattern scanner and evidence offsets -/

theorem eatSpaces_length {s r : List Char} (h : eatSpaces s = some r) :
    r.length < s.length := by
  match s with
  | [] => simp [eatSpaces] at h
  | c :: cs =>
    simp only [eatSpaces] at h
    by_cases hc : pyIsSpace c
    · rw [if_pos hc] at h
      rw [← Option.some_inj.mp h]
      exact Nat.lt_succ_of_le (List.dropWhile_sublist pyIsSpace).length_le
    · rw [if_neg hc] at h
      exact absurd h (by simp)

theorem eatLit_length {lit s r : List Char} (h : eatLit lit s = some r) :
    r.length ≤ s.length := by
  induction lit generalizing s with
  | nil =>
    simp only [eatLit] at h
    rw [← Option.some_inj.mp h]
  | cons c cs ih =>
    match s with
    | [] => simp [eatLit] at h
    | d :: ds =>
      simp only [eatLit] at h
      by_cases hc : d.toLower = c.toLower
      · rw [if_pos hc] at h
        exact le_trans (ih h) (Nat.le_succ _)
      · rw [if_neg hc] at h
        exact absurd h (by simp)

theorem matchTail_length {mids : List (List Char)} {s w r : List Char}
    (h : matchTail mids s = some (w, r)) : r.length < s.length := by
  induction mids generalizing s with
  | nil =>
    simp only [matchTail] at h
    rcases hsp : eatSpaces s with _ | s1 <;> rw [hsp] at h
    · exact absurd h (by simp)
    · rw [Option.some_bind] at h
      by_cases hw : (s1.takeWhile isWordChar).isEmpty
      · rw [if_pos hw] at h
        exact absurd h (by simp)
      · rw [if_neg hw] at h
        have h2 := Option.some_inj.mp h
        injection h2 with h2a h2b
        rw [← h2b]
        calc (s1.drop (s1.takeWhile isWordChar).length).length
            ≤ s1.length := (List.drop_sublist _ _).length_le
          _ < s.length := eatSpaces_length hsp
  | cons lit lits ih =>
    simp only [matchTail] at h
    rcases hsp : eatSpaces s with _ | s1 <;> rw [hsp] at h
    · exact absurd h (by simp)
    · rw [Option.some_bind] at h
      rcases hlit : eatLit lit s1 with _ | s2 <;> rw [hlit] at h
      · exact absurd h (by simp)
      · rw [Option.some_bind] at h
        calc r.length < s2.length := ih h
          _ ≤ s1.length := eatLit_length hlit
          _ < s.length := eatSpaces_length hsp

theorem matchAt_length {mids : List (List Char)} {s w1 w2 r : List Char}
    (h : matchAt mids s = some (w1, w2, r)) : r.length < s.length := by
  rw [matchAt] at h
  by_cases he : (s.takeWhile isWordChar).isEmpty
  · rw [if_pos he] at h
    exact absurd h (by simp)
  · rw [if_neg he] at h
    rcases ht : matchTail mids (s.drop (s.takeWhile isWordChar).length)
        with _ | ⟨w2', r'⟩ <;> rw [ht] at h
    · exact absurd h (by simp)
    · rw [Option.map_some'] at h
      have h2 := Option.some_inj.mp h
      injection h2 with h2a h2b
      injection h2b with h2c h2d
      rw [← h2d]
      calc r'.length < (s.drop (s.takeWhile isWordChar).length).length :=
            matchTail_length ht
        _ ≤ s.length := (List.drop_sublist _ _).length_le

theorem scanPattern_bounds (text : List Char) (mids : List (List Char)) :
    ∀ (fuel i : Nat), ∀ m ∈ scanPattern text mids fuel i,
      m.1 < m.2.1 ∧ m.2.1 ≤ text.length := by
  intro fuel
  induction fuel with
  | zero => intro i m hm; simp [scanPattern] at hm
  | succ fuel ih =>
    intro i m hm
    simp only [scanPattern] at hm
    rcases hma : matchAt mids (text.drop i) with _ | ⟨w1, w2, rest⟩ <;>
      rw [hma] at hm
    · by_cases hi : i < text.length
      · rw [if_pos hi] at hm
        exact ih (i + 1) m hm
      · rw [if_neg hi] at hm
        simp at hm
    · rcases List.mem_cons.mp hm with h1 | h1
      · subst h1
        have hrest := matchAt_length hma
        have hdrop : (text.drop i).length = text.length - i :=
          List.length_drop i text
        have hipos : i < text.length := by
          by_contra hc
          rw [hdrop] at hrest
          omega
        refine ⟨?_, ?_⟩ <;> simp only <;> omega
      · exact ih _ m h1

theorem findIter_bounds {text : List Char} {mids : List (List Char)} :
    ∀ m ∈ findIter mids text, m.1 < m.2.1 ∧ m.2.1 ≤ text.length := by
  intro m hm
  exact scanPattern_bounds text mids (text.length + 1) 0 m hm

theorem extract_openie_triples_bounds {text : List Char}
    {registry : List ConceptRegistry} :
    ∀ t ∈ extract_openie_triples text registry,
      t.start_char < t.end_char ∧ t.end_char ≤ text.length := by
  intro t ht
  rw [extract_openie_triples, List.mem_flatMap] at ht
  obtain ⟨pr, _, ht2⟩ := ht
  rw [List.mem_map] at ht2
  obtain ⟨m, hm, hmt⟩ := ht2
  have hb := findIter_bounds m hm
  rw [← hmt]
  exact hb

theorem pySlice_length_le (s : List Char) (a b : Nat) :
    (pySlice s a b).length ≤ b - a := by
  rw [pySlice, List.length_take]
  exact min_le_left _ _

theorem pySlice_nested {doc nt : List Char} {ns ne s e : Nat}
    (hnt : nt = pySlice doc ns ne) (he : e ≤ nt.length) :
    pySlice doc (s + ns) (e + ns) = pySlice nt s e := by
  have hne : e ≤ ne - ns := le_trans he (hnt ▸ pySlice_length_le doc ns ne)
  subst hnt
  rw [pySlice, pySlice, pySlice]
  rw [List.drop_take]
  rw [List.take_take]
  rw [List.drop_drop]
  have h1 : min (e - s) (ne - ns - s) = e - s := by omega
  have h2 : e + ns - (s + ns) = e - s := by omega
  have h3 : ns + s = s + ns := by omega
  rw [h1, h2, h3]

/-! ### Lemmas: extract_links membership and evidence -/

theorem mem_resolveDuplicates_subset {x : KnowledgeGraphEdge}
    {E : List KnowledgeGraphEdge} (h : x ∈ resolveDuplicates E) : x ∈ E := by
  rw [mem_resolveDuplicates_iff] at h
  have h2 := (runMax_none_char h).1
  exact (List.mem_filter.mp h2).1

theorem extractLlmRelations_eq_nil (acomplete : List DocumentTreeNode → String)
    (nodes : List DocumentTreeNode) (registry : List ConceptRegistry) :
    extractLlmRelations acomplete nodes registry = [] := by
  rw [extractLlmRelations]
  have h0 : (chunks 5 nodes).flatMap (fun batch =>
      parseRelationResponse (acomplete batch) batch) = [] :=
    List.flatMap_eq_nil_iff.mpr (fun b _ => rfl)
  rw [h0]
  rfl

theorem mem_extractLinks_openie {acomplete : List DocumentTreeNode → String}
    {document_tree : List DocumentTreeNode} {registry : List ConceptRegistry}
    {use_openie use_llm : Bool} {e : KnowledgeGraphEdge}
    (h : e ∈ extractLinks acomplete document_tree registry use_openie use_llm) :
    ∃ node ∈ document_tree, e ∈ openieNodeEdges node registry := by
  simp only [extractLinks] at h
  rw [show (if use_llm then
      extractLlmRelations acomplete document_tree registry else []) = [] by
    cases use_llm <;> simp [extractLlmRelations_eq_nil]] at h
  rw [List.append_nil] at h
  have h2 := mem_resolveContradictions (mem_resolveDuplicates_subset h)
  cases use_openie with
  | false => simp at h2
  | true =>
    simp only [if_true] at h2
    rw [List.mem_flatMap] at h2
    exact h2

theorem openieNodeEdges_span {docText : List Char} {node : DocumentTreeNode}
    {registry : List ConceptRegistry} {e : KnowledgeGraphEdge}
    {span : EvidenceSpan}
    (hnode : node.text = pySlice docText node.start_char node.end_char)
    (he : e ∈ openieNodeEdges node registry) (hs : span ∈ e.evidence_spans) :
    pySlice docText span.start_char span.end_char = span.text := by
  rw [openieNodeEdges, List.mem_map] at he
  obtain ⟨t, ht, hte⟩ := he
  have hb := extract_openie_triples_bounds t ht
  rw [← hte] at hs
  simp only [List.mem_singleton] at hs
  subst hs
  show pySlice docText (t.start_char + node.start_char)
      (t.end_char + node.start_char) = pySlice node.text t.start_char t.end_char
  exact pySlice_nested hnode hb.2

/-! ### Lemmas: no-tie duplicate resolution and survivor order -/

theorem runMax_eq_of_max {g : List KnowledgeGraphEdge} {x : KnowledgeGraphEdge}
    (hmem : x ∈ g) (hmax : ∀ e ∈ g, e.confidence ≤ x.confidence)
    (hug : ∀ e1 ∈ g, ∀ e2 ∈ g, e1.confidence = e2.confidence → e1 = e2) :
    runMax none g = some x := by
  match g with
  | [] => simp at hmem
  | h0 :: t0 =>
    obtain ⟨m, hm⟩ := runMax_some_ex t0 h0
    have hm2 : runMax none (h0 :: t0) = some m := hm
    obtain ⟨hmm, hmax2⟩ := runMax_none_char hm2
    rw [hm2]
    have : m = x :=
      hug m hmm x hmem (le_antisymm (hmax m hmm) (hmax2 x hmem))
    rw [this]

theorem resolveDuplicates_mem_of_perm {E E' : List KnowledgeGraphEdge}
    (hperm : E.Perm E')
    (hties : ∀ e1 ∈ E, ∀ e2 ∈ E, tripleKey e1 = tripleKey e2 →
      e1.confidence = e2.confidence → e1 = e2)
    {x : KnowledgeGraphEdge} (h : x ∈ resolveDuplicates E) :
    x ∈ resolveDuplicates E' := by
  rw [mem_resolveDuplicates_iff] at h ⊢
  obtain ⟨hmem, hmax⟩ := runMax_none_char h
  have hpf := hperm.filter (fun e => tripleKey e = tripleKey x)
  apply runMax_eq_of_max
  · exact hpf.mem_iff.mp hmem
  · intro e hef
    exact hmax e (hpf.mem_iff.mpr hef)
  · intro e1 h1 e2 h2 hconf
    have hk1 : tripleKey e1 = tripleKey x :=
      of_decide_eq_true (List.mem_filter.mp h1).2
    have hk2 : tripleKey e2 = tripleKey x :=
      of_decide_eq_true (List.mem_filter.mp h2).2
    exact hties e1 (hperm.mem_iff.mpr (List.mem_filter.mp h1).1)
      e2 (hperm.mem_iff.mpr (List.mem_filter.mp h2).1)
      (hk1.trans hk2.symm) hconf

theorem keys_foldl_dupStep (E : List KnowledgeGraphEdge) :
    ∀ seen, (E.foldl dupStep seen).map Prod.fst =
      (E.map tripleKey).foldl occStep (seen.map Prod.fst) := by
  induction E with
  | nil => intro seen; rfl
  | cons e E ih =>
    intro seen
    rw [List.foldl_cons, List.map_cons, List.foldl_cons, ih]
    congr 1
    rcases hcur : alookup (tripleKey e) seen with _ | cur
    · rw [dupStep_eq_none hcur]
      have hnot : tripleKey e ∉ seen.map Prod.fst := alookup_eq_none.mp hcur
      rw [occStep, if_neg hnot]
      simp
    · rw [dupStep_eq_some hcur]
      have hin : tripleKey e ∈ seen.map Prod.fst := by
        by_contra hc
        rw [alookup_eq_none.mpr hc] at hcur
        exact absurd hcur (by simp)
      rw [occStep, if_pos hin]
      by_cases hlt : cur.confidence < e.confidence
      · rw [if_pos hlt, keys_replaceVal]
      · rw [if_neg hlt]

theorem resolveDuplicates_keys (E : List KnowledgeGraphEdge) :
    (resolveDuplicates E).map tripleKey = firstOccKeys (E.map tripleKey) := by
  rw [resolveDuplicates, List.map_map]
  have h1 : ((E.foldl dupStep []).map (tripleKey ∘ fun p => p.2)) =
      (E.foldl dupStep []).map Prod.fst :=
    List.map_congr_left (fun p hp => foldl_dupStep_key_inv E [] (by simp) p hp)
  rw [h1, keys_foldl_dupStep E [], firstOccKeys]
  simp only [List.map_nil]

/-! ### Lemmas: taxonomy proposal failure propagation -/

theorem proposeLoop_error
    (acomplete : List (String × String) → Except String String) :
    ∀ (bs : List (List (String × String))) (acc : List TaxonomyEdge),
      (∃ b ∈ bs, ∃ msg, acomplete b = Except.error msg) →
      ∃ msg, proposeLoop acomplete bs acc = Except.error msg := by
  intro bs
  induction bs with
  | nil =>
    intro acc h
    simp at h
  | cons b0 bs ih =>
    intro acc h
    rcases hb0 : acomplete b0 with msg | resp
    · refine ⟨msg, ?_⟩
      rw [proposeLoop, hb0]
    · have h2 : ∃ b ∈ bs, ∃ msg, acomplete b = Except.error msg := by
        obtain ⟨b, hb, msg, hmsg⟩ := h
        rcases List.mem_cons.mp hb with h1 | h1
        · rw [h1, hb0] at hmsg
          exact absurd hmsg (by simp)
        · exact ⟨b, h1, msg, hmsg⟩
      obtain ⟨msg, hmsg⟩ := ih (acc ++ parseTaxonomyResponse resp) h2
      refine ⟨msg, ?_⟩
      rw [proposeLoop, hb0]
      exact hmsg

/-! ### Lemmas: pipeline assembly and validation -/

theorem assembleOutput_taxonomy_edges (cfg : PipelineConfig)
    (document_id : String) (tree : List DocumentTreeNode)
    (reg : List ConceptRegistry) (tax : List TaxonomyEdge)
    (kg : List KnowledgeGraphEdge) :
    (assembleOutput cfg document_id tree reg tax kg).taxonomy_edges = tax := rfl

theorem assembleOutput_kg_edges (cfg : PipelineConfig)
    (document_id : String) (tree : List DocumentTreeNode)
    (reg : List ConceptRegistry) (tax : List TaxonomyEdge)
    (kg : List KnowledgeGraphEdge) :
    (assembleOutput cfg document_id tree reg tax kg).kg_edges = kg := rfl

theorem assembleOutput_validation_errors (cfg : PipelineConfig)
    (document_id : String) (tree : List DocumentTreeNode)
    (reg : List ConceptRegistry) (tax : List TaxonomyEdge)
    (kg : List KnowledgeGraphEdge) :
    (assembleOutput cfg document_id tree reg tax kg).validation_errors =
      if cfg.validate_schema then
        validateOutput cfg
          { document_id := document_id, document_tree := tree,
            concept_registry := reg, taxonomy_edges := tax, kg_edges := kg,
            validation_errors := [], confidence_summary := [] }
      else [] := rfl

theorem assembleOutput_summary (cfg : PipelineConfig)
    (document_id : String) (tree : List DocumentTreeNode)
    (reg : List ConceptRegistry) (tax : List TaxonomyEdge)
    (kg : List KnowledgeGraphEdge) :
    (assembleOutput cfg document_id tree reg tax kg).confidence_summary =
      (if tax.isEmpty then [] else
        [("taxonomy_avg", mean (tax.map (fun e => e.confidence)))]) ++
      (if kg.isEmpty then [] else
        [("kg_avg", mean (kg.map (fun e => e.confidence)))]) := by
  simp only [assembleOutput]
  by_cases ht : tax.isEmpty <;> by_cases hk : kg.isEmpty <;> simp [ht, hk]

theorem validateOutput_tax_conf_mem {cfg : PipelineConfig}
    {output : ExtractionPipelineOutput} {e : TaxonomyEdge}
    (he : e ∈ output.taxonomy_edges)
    (hconf : e.confidence < cfg.min_confidence) :
    ("Taxonomy edge " ++ e.parent_id ++ "->" ++ e.child_id ++
      " below confidence threshold") ∈ validateOutput cfg output := by
  rw [validateOutput]
  apply List.mem_append.mpr
  apply Or.inl
  apply List.mem_append.mpr
  apply Or.inr
  apply List.mem_map.mpr
  exact ⟨e, List.mem_filter.mpr ⟨he, by simp [hconf]⟩, rfl⟩

theorem validateOutput_kg_conf_mem {cfg : PipelineConfig}
    {output : ExtractionPipelineOutput} {e : KnowledgeGraphEdge}
    (he : e ∈ output.kg_edges) (hconf : e.confidence < cfg.min_confidence) :
    ("KG edge " ++ e.source_id ++ "->" ++ e.target_id ++
      " below confidence threshold") ∈ validateOutput cfg output := by
  rw [validateOutput]
  apply List.mem_append.mpr
  apply Or.inr
  apply List.mem_map.mpr
  exact ⟨e, List.mem_filter.mpr ⟨he, by simp [hconf]⟩, rfl⟩

/-! ### Lemmas: cold-start pair generation -/

theorem pairsWithin_mem {x y : String} {l : List String}
    (h : (x, y) ∈ pairsWithin l) : x ∈ l ∧ y ∈ l := by
  induction l with
  | nil => simp [pairsWithin] at h
  | cons a l ih =>
    simp only [pairsWithin, List.mem_append] at h
    rcases h with h | h
    · rw [List.mem_map] at h
      obtain ⟨b, hb, hxy⟩ := h
      injection hxy with h1 h2
      constructor
      · rw [← h1]
        exact List.mem_cons_self _ _
      · rw [← h2]
        exact List.mem_cons_of_mem _ hb
    · obtain ⟨h1, h2⟩ := ih h
      exact ⟨List.mem_cons_of_mem _ h1, List.mem_cons_of_mem _ h2⟩

theorem coldStartPairs_same_label (concepts : List ConceptRegistry)
    (labels : List Int) :
    ∀ a b, (a, b) ∈ coldStartPairs concepts labels →
      ∃ l : Int,
        (l, a) ∈ labels.zip (concepts.map (fun c => c.canonical_id)) ∧
        (l, b) ∈ labels.zip (concepts.map (fun c => c.canonical_id)) := by
  intro a b h
  rw [coldStartPairs, List.mem_flatMap] at h
  obtain ⟨g, hg, hab⟩ := h
  rw [clusterConcepts] at hg
  by_cases hlen : 1 < g.2.length
  · rw [if_pos hlen] at hab
    obtain ⟨ha, hb⟩ := pairsWithin_mem hab
    obtain ⟨k, ids⟩ := g
    have hgf : ids =
        ((labels.zip (concepts.map (fun c => c.canonical_id))).filter
          (fun p => p.1 = k)).map Prod.snd := mem_groupFold_eq_filter hg
    refine ⟨k, ?_, ?_⟩
    · rw [hgf, List.mem_map] at ha
      obtain ⟨p, hp, hpa⟩ := ha
      have hk : p.1 = k := of_decide_eq_true (List.mem_filter.mp hp).2
      have hpe : p = (k, a) := Prod.ext hk hpa
      exact hpe ▸ (List.mem_filter.mp hp).1
    · rw [hgf, List.mem_map] at hb
      obtain ⟨p, hp, hpb⟩ := hb
      have hk : p.1 = k := of_decide_eq_true (List.mem_filter.mp hp).2
      have hpe : p = (k, b) := Prod.ext hk hpb
      exact hpe ▸ (List.mem_filter.mp hp).1
  · rw [if_neg hlen] at hab
    simp at hab

/-! ### Claim theorems -/

/-- C1: for every evidence span attached to any edge in the output of
`LinkExtractor.extract_links`, the document text sliced at
`[span.start_char, span.end_char)` equals `span.text`, under the
precondition that every document-tree node's `text` equals the document
substring at its own offsets; in particular this holds for every evidence
span built for a pattern-extracted edge. -/
theorem claim_C1 (docText : List Char)
    (acomplete : List DocumentTreeNode → String)
    (document_tree : List DocumentTreeNode) (registry : List ConceptRegistry)
    (use_openie use_llm : Bool)
    (hoffsets : ∀ node ∈ document_tree,
      node.text = pySlice docText node.start_char node.end_char) :
    ∀ e ∈ extractLinks acomplete document_tree registry use_openie use_llm,
      ∀ span ∈ e.evidence_spans,
        pySlice docText span.start_char span.end_char = span.text := by
  intro e he span hs
  obtain ⟨node, hnode, he2⟩ := mem_extractLinks_openie he
  exact openieNodeEdges_span (hoffsets node hnode) he2 hs

/-- Witness for C1: a concrete document whose single tree node holds the
substring at offsets 5-19, with pattern extraction on. -/
theorem claim_C1_witness :
    (∀ node ∈ [c1node],
      node.text = pySlice c1doc node.start_char node.end_char) ∧
    (∀ e ∈ extractLinks (fun _ => "") [c1node] [] true false,
      ∀ span ∈ e.evidence_spans,
        pySlice c1doc span.start_char span.end_char = span.text) :=
  ⟨by decide, claim_C1 c1doc (fun _ => "") [c1node] [] true false (by decide)⟩

/-- C2 counterexample: on the spec's end-to-end document with concepts
GDPR, data protection and Risk, pattern-only extraction produces one edge,
not the two the claim requires (the code has no `requires` pattern and the
`\w+` subject group cannot capture the two-word term). -/
theorem claim_C2_counterexample :
    (extractLinks (fun _ => "") [c2node] c2registry true false).length = 1 := by
  rfl

/-- C2 amended: on that document the pattern-only extractor produces
exactly the single edge (protection, c-risk, mitigates) whose evidence
span is the matched substring with the fixed 0.6 pattern confidence. -/
theorem claim_C2_amended :
    extractLinks (fun _ => "") [c2node] c2registry true false = [c2edge] := by
  rfl

/-- C3: whenever a list of edges contains two edges on the same
`(source_id, target_id)` pair with different predicates,
`_resolve_contradictions` keeps exactly one edge of that group, of maximal
confidence within the group; in the concrete instance of
(A,B,depends_on,0.9) and (A,B,mitigates,0.6), exactly the 0.9 edge
survives. -/
theorem claim_C3 :
    (∀ (E : List KnowledgeGraphEdge) (s t : String),
      (∃ e1 ∈ E, ∃ e2 ∈ E, pairKey e1 = (s, t) ∧ pairKey e2 = (s, t) ∧
        e1.predicate ≠ e2.predicate) →
      ∃ m, (resolveContradictions E).filter (fun e => pairKey e = (s, t)) = [m] ∧
        m ∈ E.filter (fun e => pairKey e = (s, t)) ∧
        ∀ e ∈ E.filter (fun e => pairKey e = (s, t)),
          e.confidence ≤ m.confidence) ∧
    resolveContradictions [edgeAB1, edgeAB2] = [edgeAB1] := by
  constructor
  · intro E s t h
    obtain ⟨e1, he1, e2, he2, hk1, hk2, hp⟩ := h
    rw [filter_resolveContradictions]
    have he1f : e1 ∈ E.filter (fun e => pairKey e = (s, t)) :=
      List.mem_filter.mpr ⟨he1, by simp [hk1]⟩
    have he2f : e2 ∈ E.filter (fun e => pairKey e = (s, t)) :=
      List.mem_filter.mpr ⟨he2, by simp [hk2]⟩
    rcases hg : E.filter (fun e => pairKey e = (s, t)) with _ | ⟨h0, t0⟩
    · rw [hg] at he1f
      simp at he1f
    · rw [hg] at he1f he2f
      have hnp : ¬ ((h0 :: t0).map (fun e => e.predicate)).Pairwise (· = ·) := by
        intro hpw
        exact hp (pairwise_eq_of_mem hpw _
          (List.mem_map.mpr ⟨e1, he1f, rfl⟩) _
          (List.mem_map.mpr ⟨e2, he2f, rfl⟩))
      refine ⟨maxByConfidence h0 t0, ?_, ?_, ?_⟩
      · rw [resolveGroup, if_neg hnp]
      · exact maxByConfidence_mem t0 h0
      · intro e hef
        exact maxByConfidence_ge t0 h0 e hef
  · decide

/-- Witness for C3: the concrete contradiction (A,B,depends_on,0.9)
versus (A,B,mitigates,0.6). -/
theorem claim_C3_witness :
    ∃ m, (resolveContradictions [edgeAB1, edgeAB2]).filter
        (fun e => pairKey e = ("A", "B")) = [m] ∧
      m ∈ [edgeAB1, edgeAB2].filter (fun e => pairKey e = ("A", "B")) ∧
      ∀ e ∈ [edgeAB1, edgeAB2].filter (fun e => pairKey e = ("A", "B")),
        e.confidence ≤ m.confidence :=
  claim_C3.1 [edgeAB1, edgeAB2] "A" "B"
    ⟨edgeAB1, by decide, edgeAB2, by decide, by decide, by decide, by decide⟩

/-- C4 counterexample: two duplicates of equal confidence differing in
`extracted_by`; reversing their order changes the survivor, so the claim
of order-independence fails in the presence of confidence ties. -/
theorem claim_C4_counterexample :
    [dupEdge2, dupEdge1].Perm [dupEdge1, dupEdge2] ∧
    dupEdge1 ≠ dupEdge2 ∧
    resolveDuplicates [dupEdge1, dupEdge2] = [dupEdge1] ∧
    resolveDuplicates [dupEdge2, dupEdge1] = [dupEdge2] ∧
    dupEdge2 ∉ resolveDuplicates [dupEdge1, dupEdge2] := by
  refine ⟨by decide, by decide, by rfl, by rfl, by decide⟩

/-- C4 amended: duplicate resolution is order-independent (same set of
survivors for every permutation) provided no two distinct edges share
both their `(source_id, target_id, predicate)` key and their confidence. -/
theorem claim_C4_amended (E E' : List KnowledgeGraphEdge) (hperm : E.Perm E')
    (hties : ∀ e1 ∈ E, ∀ e2 ∈ E, tripleKey e1 = tripleKey e2 →
      e1.confidence = e2.confidence → e1 = e2) :
    ∀ x, x ∈ resolveDuplicates E ↔ x ∈ resolveDuplicates E' := by
  intro x
  constructor
  · exact resolveDuplicates_mem_of_perm hperm hties
  · apply resolveDuplicates_mem_of_perm hperm.symm
    intro e1 h1 e2 h2
    exact hties e1 (hperm.mem_iff.mpr h1) e2 (hperm.mem_iff.mpr h2)

/-- Witness for C4 amended: a two-edge list with distinct keys, permuted. -/
theorem claim_C4_witness :
    [dupEdge1, edgeAB1].Perm [edgeAB1, dupEdge1] ∧
    ∀ x, x ∈ resolveDuplicates [dupEdge1, edgeAB1] ↔
      x ∈ resolveDuplicates [edgeAB1, dupEdge1] :=
  ⟨by decide, claim_C4_amended [dupEdge1, edgeAB1] [edgeAB1, dupEdge1]
    (by decide) (by decide)⟩

/-- C5: both post-processing passes of the link extractor are idempotent:
running `_resolve_duplicates` or `_resolve_contradictions` twice equals
running it once, for every edge list. -/
theorem claim_C5 (E : List KnowledgeGraphEdge) :
    resolveDuplicates (resolveDuplicates E) = resolveDuplicates E ∧
    resolveContradictions (resolveContradictions E) = resolveContradictions E :=
  ⟨resolveDuplicates_idem E, resolveContradictions_idem E⟩

/-- C6 counterexample: a knowledge-graph edge below `min_confidence`
remains in the assembled output's `kg_edges` (while also being reported),
so the claim that such edges are excluded from the final edge lists fails. -/
theorem claim_C6_counterexample :
    c6edge.confidence < c6cfg.min_confidence ∧
    c6edge ∈ (assembleOutput c6cfg "doc1" [] [] [] [c6edge]).kg_edges ∧
    ("KG edge A->B below confidence threshold") ∈
      (assembleOutput c6cfg "doc1" [] [] [] [c6edge]).validation_errors := by
  refine ⟨by decide, by decide, by decide⟩

/-- C6 amended: `run_pipeline` performs no confidence-based exclusion:
the assembled output returns the stage edge lists unchanged, and each
taxonomy or knowledge-graph edge below `min_confidence` is only reported
in `validation_errors` (when `validate_schema` is set). -/
theorem claim_C6_amended (cfg : PipelineConfig) (document_id : String)
    (tree : List DocumentTreeNode) (reg : List ConceptRegistry)
    (tax : List TaxonomyEdge) (kg : List KnowledgeGraphEdge) :
    (assembleOutput cfg document_id tree reg tax kg).taxonomy_edges = tax ∧
    (assembleOutput cfg document_id tree reg tax kg).kg_edges = kg ∧
    (cfg.validate_schema = true →
      ∀ e ∈ tax, e.confidence < cfg.min_confidence →
        ("Taxonomy edge " ++ e.parent_id ++ "->" ++ e.child_id ++
          " below confidence threshold") ∈
          (assembleOutput cfg document_id tree reg tax kg).validation_errors) ∧
    (cfg.validate_schema = true →
      ∀ e ∈ kg, e.confidence < cfg.min_confidence →
        ("KG edge " ++ e.source_id ++ "->" ++ e.target_id ++
          " below confidence threshold") ∈
          (assembleOutput cfg document_id tree reg tax kg).validation_errors) := by
  refine ⟨rfl, rfl, ?_, ?_⟩
  · intro hv e he hconf
    rw [assembleOutput_validation_errors, if_pos hv]
    exact validateOutput_tax_conf_mem he hconf
  · intro hv e he hconf
    rw [assembleOutput_validation_errors, if_pos hv]
    exact validateOutput_kg_conf_mem he hconf

/-- Witness for C6 amended at concrete low-confidence taxonomy and
knowledge-graph edges. -/
theorem claim_C6_witness :
    (assembleOutput c6cfg "doc1" [] [] [c6taxEdge] [c6edge]).taxonomy_edges =
      [c6taxEdge] ∧
    (assembleOutput c6cfg "doc1" [] [] [c6taxEdge] [c6edge]).kg_edges =
      [c6edge] ∧
    ("Taxonomy edge " ++ c6taxEdge.parent_id ++ "->" ++ c6taxEdge.child_id ++
      " below confidence threshold") ∈
      (assembleOutput c6cfg "doc1" [] [] [c6taxEdge] [c6edge]).validation_errors ∧
    ("KG edge " ++ c6edge.source_id ++ "->" ++ c6edge.target_id ++
      " below confidence threshold") ∈
      (assembleOutput c6cfg "doc1" [] [] [c6taxEdge] [c6edge]).validation_errors :=
  ⟨(claim_C6_amended c6cfg "doc1" [] [] [c6taxEdge] [c6edge]).1,
    (claim_C6_amended c6cfg "doc1" [] [] [c6taxEdge] [c6edge]).2.1,
    (claim_C6_amended c6cfg "doc1" [] [] [c6taxEdge] [c6edge]).2.2.1 rfl
      c6taxEdge (by decide) (by decide),
    (claim_C6_amended c6cfg "doc1" [] [] [c6taxEdge] [c6edge]).2.2.2 rfl
      c6edge (by decide) (by decide)⟩

/-- C7 counterexample: with 21 pairs (three batches of 10, 10, 1) and a
collaborator that raises exactly on batch 2, `propose_taxonomy_relations`
returns the propagated failure: the run aborts, no edges from batches 1
and 3 are returned and no validation error is recorded. -/
theorem claim_C7_counterexample :
    (chunks 10 c7pairs).length = 3 ∧
    c7acomplete ((chunks 10 c7pairs).getD 0 []) = Except.ok "[]" ∧
    c7acomplete ((chunks 10 c7pairs).getD 1 []) =
      Except.error "simulated timeout" ∧
    c7acomplete ((chunks 10 c7pairs).getD 2 []) = Except.ok "[]" ∧
    proposeTaxonomyRelations c7acomplete c7pairs =
      Except.error "simulated timeout" := by
  refine ⟨by rfl, by rfl, by rfl, by rfl, by rfl⟩

/-- C7 amended: if the external completion call fails for any batch,
`propose_taxonomy_relations` propagates the failure (the whole call
returns the error; nothing is recorded and no batch's edges survive). -/
theorem claim_C7_amended
    (acomplete : List (String × String) → Except String String)
    (concept_pairs : List (String × String))
    (hfail : ∃ b ∈ chunks 10 concept_pairs, ∃ msg,
      acomplete b = Except.error msg) :
    ∃ msg, proposeTaxonomyRelations acomplete concept_pairs =
      Except.error msg := by
  rw [proposeTaxonomyRelations]
  exact proposeLoop_error acomplete (chunks 10 concept_pairs) [] hfail

/-- Witness for C7 amended at the concrete 21-pair, failing-batch-2 input. -/
theorem claim_C7_witness :
    ∃ msg, proposeTaxonomyRelations c7acomplete c7pairs =
      Except.error msg :=
  claim_C7_amended c7acomplete c7pairs
    ⟨(chunks 10 c7pairs).getD 1 [], by decide, "simulated timeout", by rfl⟩

/-- C8: in the assembled pipeline output, `confidence_summary` holds
`kg_avg` exactly when `kg_edges` is non-empty (and then it is the
arithmetic mean of the edge confidences), and likewise `taxonomy_avg`
for `taxonomy_edges`; empty collections yield an absent key. -/
theorem claim_C8 (cfg : PipelineConfig) (document_id : String)
    (tree : List DocumentTreeNode) (reg : List ConceptRegistry)
    (tax : List TaxonomyEdge) (kg : List KnowledgeGraphEdge) :
    ((alookup "kg_avg"
        (assembleOutput cfg document_id tree reg tax kg).confidence_summary).isSome ↔
      (assembleOutput cfg document_id tree reg tax kg).kg_edges ≠ []) ∧
    ((assembleOutput cfg document_id tree reg tax kg).kg_edges ≠ [] →
      alookup "kg_avg"
          (assembleOutput cfg document_id tree reg tax kg).confidence_summary =
        some (mean
          (((assembleOutput cfg document_id tree reg tax kg).kg_edges).map
            (fun e => e.confidence)))) ∧
    ((alookup "taxonomy_avg"
        (assembleOutput cfg document_id tree reg tax kg).confidence_summary).isSome ↔
      (assembleOutput cfg document_id tree reg tax kg).taxonomy_edges ≠ []) ∧
    ((assembleOutput cfg document_id tree reg tax kg).taxonomy_edges ≠ [] →
      alookup "taxonomy_avg"
          (assembleOutput cfg document_id tree reg tax kg).confidence_summary =
        some (mean
          (((assembleOutput cfg document_id tree reg tax kg).taxonomy_edges).map
            (fun e => e.confidence)))) := by
  rw [assembleOutput_summary cfg document_id tree reg tax kg,
    assembleOutput_kg_edges, assembleOutput_taxonomy_edges]
  have hne : ¬ (("taxonomy_avg" : String) = "kg_avg") := by decide
  have hne2 : ¬ (("kg_avg" : String) = "taxonomy_avg") := by decide
  rcases tax with _ | ⟨t0, ts⟩ <;> rcases kg with _ | ⟨k0, ks⟩ <;>
    simp [alookup, hne, hne2]

/-- Witness for C8 at a one-edge knowledge graph. -/
theorem claim_C8_witness :
    (assembleOutput c6cfg "doc1" [] [] [] [c8edge]).kg_edges ≠ [] ∧
    alookup "kg_avg"
        (assembleOutput c6cfg "doc1" [] [] [] [c8edge]).confidence_summary =
      some (mean
        (((assembleOutput c6cfg "doc1" [] [] [] [c8edge]).kg_edges).map
          (fun e => e.confidence))) :=
  ⟨by decide,
    (claim_C8 c6cfg "doc1" [] [] [] [c8edge]).2.1 (by decide)⟩

/-- C9 counterexample: two concepts both labelled `-1` (the DBSCAN noise
label) are grouped into one shared cluster by `cluster_concepts`, and
cold-start pair generation pairs them, contradicting the claim that noise
points are singletons producing no pairs. -/
theorem claim_C9_counterexample :
    clusterConcepts c9concepts [-1, -1] = [(-1, ["a", "b"])] ∧
    coldStartPairs c9concepts [-1, -1] = [("a", "b")] := ⟨rfl, rfl⟩

/-- C9 amended: every candidate pair of cold-start taxonomy building
consists of two concepts with the same clustering label (concepts with
different labels never pair), but label `-1` noise points form one shared
group and can be paired with each other. -/
theorem claim_C9_amended (concepts : List ConceptRegistry)
    (labels : List Int) :
    ∀ a b, (a, b) ∈ coldStartPairs concepts labels →
      ∃ l : Int,
        (l, a) ∈ labels.zip (concepts.map (fun c => c.canonical_id)) ∧
        (l, b) ∈ labels.zip (concepts.map (fun c => c.canonical_id)) :=
  coldStartPairs_same_label concepts labels

/-- Witness for C9 amended at a two-concept, one-cluster input. -/
theorem claim_C9_witness :
    ∃ l : Int,
      (l, "a") ∈ ([0, 0] : List Int).zip
        (c9concepts.map (fun c => c.canonical_id)) ∧
      (l, "b") ∈ ([0, 0] : List Int).zip
        (c9concepts.map (fun c => c.canonical_id)) :=
  claim_C9_amended c9concepts [0, 0] "a" "b" (by decide)

/-- C10: when all duplicates of a `(source_id, target_id, predicate)` key
carry equal confidence, `_resolve_duplicates` keeps exactly the earliest
occurrence (replacement requires strictly greater confidence), and the
output lists survivors in first-occurrence order of their keys. -/
theorem claim_C10 :
    (∀ (E : List KnowledgeGraphEdge) (k : String × String × String),
      2 ≤ (E.filter (fun e => tripleKey e = k)).length →
      (∀ e1 ∈ E.filter (fun e => tripleKey e = k),
        ∀ e2 ∈ E.filter (fun e => tripleKey e = k),
          e1.confidence = e2.confidence) →
      ∃ h, (E.filter (fun e => tripleKey e = k)).head? = some h ∧
        h ∈ resolveDuplicates E ∧
        ∀ x ∈ resolveDuplicates E, tripleKey x = k → x = h) ∧
    ∀ E : List KnowledgeGraphEdge,
      (resolveDuplicates E).map tripleKey = firstOccKeys (E.map tripleKey) := by
  constructor
  · intro E k hlen hconf
    rcases hg : E.filter (fun e => tripleKey e = k) with _ | ⟨h0, t0⟩
    · rw [hg] at hlen
      simp at hlen
    · have hmem0 : h0 ∈ E.filter (fun e => tripleKey e = k) := by
        rw [hg]
        exact List.mem_cons_self _ _
      have hkey0 : tripleKey h0 = k :=
        of_decide_eq_true (List.mem_filter.mp hmem0).2
      have hgg : E.filter (fun e => tripleKey e = tripleKey h0) = h0 :: t0 := by
        rw [hkey0]
        exact hg
      have hrm : runMax none
          (E.filter (fun e => tripleKey e = tripleKey h0)) = some h0 := by
        rw [hgg]
        show runMax (some h0) t0 = some h0
        apply runMax_const
        intro e he
        have he2 : e ∈ E.filter (fun e => tripleKey e = k) := by
          rw [hg]
          exact List.mem_cons_of_mem _ he
        rw [hconf e he2 h0 hmem0]
        exact lt_irrefl _
      refine ⟨h0, ?_, ?_, ?_⟩
      · rfl
      · rw [mem_resolveDuplicates_iff]
        exact hrm
      · intro x hx hkx
        rw [mem_resolveDuplicates_iff] at hx
        have hgx : E.filter (fun e => tripleKey e = tripleKey x) = h0 :: t0 := by
          rw [hkx]
          exact hg
        rw [hgx] at hx
        rw [hgg] at hrm
        exact Option.some_inj.mp (hx.symm.trans hrm)
  · exact resolveDuplicates_keys

/-- Witness for C10 at two equal-confidence duplicates. -/
theorem claim_C10_witness :
    ∃ h, ([dupEdge1, dupEdge2].filter
        (fun e => tripleKey e = ("A", "B", "related_to"))).head? = some h ∧
      h ∈ resolveDuplicates [dupEdge1, dupEdge2] ∧
      ∀ x ∈ resolveDuplicates [dupEdge1, dupEdge2],
        tripleKey x = ("A", "B", "related_to") → x = h :=
  claim_C10.1 [dupEdge1, dupEdge2] ("A", "B", "related_to")
    (by decide) (by decide)

end PdfConceptTagger
